import Mathlib

/-!
Verification of the MyTorrents Bencode decoder (src/include/bencode.hpp,
src/src/bencode.cpp) and of its torrent-metadata consumer
(src/src/torrentfile.cpp).

Modelling conventions:
* a byte is a `Nat` (0..255), a C++ `std::string` / `std::string_view` is a
  `List Nat`;
* the C++ cursor `size_t &pos` threaded through the sub-parsers is modelled
  by consuming a suffix: each sub-parser takes the not-yet-consumed suffix
  of the input and returns the still-unconsumed suffix next to its value;
* `int64_t` arithmetic is `Int` arithmetic wrapped into the signed 64-bit
  range by `i64` at every operation that the machine performs on `int64_t`,
  and `size_t` arithmetic is `Nat` arithmetic reduced mod 2 ^ 64 by `u64`;
* a thrown `std::runtime_error` is `Except.error` carrying the same message;
* the recursion of `parseValue` through lists and dictionaries is driven by
  an explicit fuel counter; the entry point `parse` supplies fuel that is
  ample for every input (the C++ recursion consumes at least one input byte
  per level), and the fuel-monotonicity lemma below makes the choice of
  bound irrelevant for the theorems.
-/

set_option maxRecDepth 100000

namespace MyTorrents

/-- The bytes of a string literal, for writing concrete inputs. -/
def bytes (s : String) : List Nat := s.toList.map Char.toNat

/-- Two's-complement wrap of an integer into the signed 64-bit range,
the effect of storing into an `int64_t`. -/
def i64 (z : Int) : Int := (z + 2 ^ 63) % 2 ^ 64 - 2 ^ 63

/-- `size_t` wrap-around (mod 2 ^ 64). -/
def u64 (n : Nat) : Nat := n % 2 ^ 64

/-- `std::isdigit` on a byte. -/
def isdigit (c : Nat) : Bool := 48 ≤ c && c ≤ 57

/-- `BencodeValue` (bencode.hpp): a tagged union of an `int64_t`, a byte
string, a list of values and a string-keyed dictionary.  The dictionary
variant carries the association list underlying a `std::map`: the
entries as they would be iterated, i.e. sorted by key (see `mapInsert`). -/
inductive BValue : Type where
  | int : Int → BValue
  | str : List Nat → BValue
  | list : List BValue → BValue
  | dict : List (List Nat × BValue) → BValue

/-- `BencodeValue::Dict = std::map<std::string, BencodePtr>`. -/
abbrev Dict := List (List Nat × BValue)

/-- `std::less<std::string>`: lexicographic comparison of byte strings
(`std::char_traits<char>::compare`, which compares as unsigned bytes). -/
def lexLt : List Nat → List Nat → Bool
  | _, [] => false
  | [], _ :: _ => true
  | a :: as, b :: bs => if a < b then true else if b < a then false else lexLt as bs

/-- `std::map::insert` as `parseDict` uses it: keep the entries sorted by
`lexLt` on the key; `none` models `.second == false` (the key was already
present, nothing inserted). -/
def mapInsert (k : List Nat) (v : BValue) : Dict → Option Dict
  | [] => some [(k, v)]
  | (k', v') :: rest =>
    if lexLt k k' then some ((k, v) :: (k', v') :: rest)
    else if lexLt k' k then (mapInsert k v rest).map (fun d => (k', v') :: d)
    else none

/-- `std::map::find` combined with the dereference the torrent layer does:
the value stored under the key, if any. -/
def mapFind (k : List Nat) : Dict → Option BValue
  | [] => none
  | (k', v) :: rest => if k' = k then some v else mapFind k rest

/-! ## The integer sub-parser (BencodeParser::parseInt) -/

/-- The digit-accumulation loop of `parseInt`:
`result = result * 10 + (input[pos] - '0')` on an `int64_t`, advancing
while the head byte is a digit.  Returns the accumulated value and the
unconsumed suffix. -/
def intDigitsLoop : List Nat → Int → Int × List Nat
  | [], acc => (acc, [])
  | c :: rest, acc =>
    if isdigit c then intDigitsLoop rest (i64 (acc * 10 + ((c : Int) - 48)))
    else (acc, c :: rest)

/-- The leading-zero test of `parseInt` after an initial `'0'`:
`pos + 1 < input.size() && input[pos + 1] != 'e'`. -/
def leadZeroBad : List Nat → Bool
  | c2 :: _ => c2 != 101
  | [] => false

/-- `parseInt` after the optional minus sign has been consumed
(`negative` records whether it was present): require a digit, reject a
leading zero, run the digit loop, require the closing `'e'`. -/
def parseIntCore (negative : Bool) (s2 : List Nat) : Except String (Int × List Nat) :=
  match s2 with
  | [] => .error "Invalid integer format: no digits"
  | c :: rest2 =>
    if isdigit c then
      if c == 48 && leadZeroBad rest2 then .error "Invalid integer format: leading zeros"
      else
        match intDigitsLoop (c :: rest2) 0 with
        | (result, s3) =>
          match s3 with
          | [] => .error "Invalid integer format: missing 'e'"
          | e1 :: s4 =>
            if e1 = 101 then .ok ((if negative then i64 (-result) else result), s4)
            else .error "Invalid integer format: missing 'e'"
    else .error "Invalid integer format: no digits"

/-- `BencodeParser::parseInt`: consume the leading `'i'`, an optional
`'-'`, then delegate to `parseIntCore`. -/
def parseInt (s : List Nat) : Except String (Int × List Nat) :=
  match s with
  | [] => .error "Invalid integer format"
  | c :: s1 =>
    if c = 105 then
      match s1 with
      | [] => .error "Invalid integer format: no digits"
      | c1 :: t => if c1 = 45 then parseIntCore true t else parseIntCore false (c1 :: t)
    else .error "Invalid integer format"

/-! ## The string sub-parser (BencodeParser::parseString) -/

/-- `input.find(':', pos)` relative to the suffix: index of the first
colon byte, if any. -/
def findColon : List Nat → Option Nat
  | [] => none
  | c :: rest => if c = 58 then some 0 else (findColon rest).map (· + 1)

/-- The length-prefix loop of `parseString`: every byte must be a digit,
accumulated into a `size_t`. -/
def strLenLoop : List Nat → Nat → Except String Nat
  | [], acc => .ok acc
  | c :: rest, acc =>
    if isdigit c then strLenLoop rest (u64 (acc * 10 + (c - 48)))
    else .error "Invalid string length: non-digit character"

/-- `BencodeParser::parseString`: find the colon, validate and read the
length prefix, require that many bytes to remain, and return them
verbatim together with the unconsumed suffix. -/
def parseString (s : List Nat) : Except String (List Nat × List Nat) :=
  match findColon s with
  | none => .error "Invalid string format: missing colon"
  | some colonIdx =>
    let lengthStr := s.take colonIdx
    if 1 < lengthStr.length ∧ lengthStr.headD 0 = 48 then
      .error "Invalid string length: leading zeros"
    else
      match strLenLoop lengthStr 0 with
      | .error e => .error e
      | .ok len =>
        let after := s.drop (colonIdx + 1)
        if after.length < len then .error "Invalid string: insufficient characters"
        else .ok (after.take len, after.drop len)

/-! ## The recursive dispatch (parseValue / parseList / parseDict) -/

mutual

/-- `BencodeParser::parseValue`: dispatch on the lead byte — digit for a
string, `'i'` for an integer, `'l'` for a list, `'d'` for a dictionary. -/
def parseValue : Nat → List Nat → Except String (BValue × List Nat)
  | 0, _ => .error "recursion limit"
  | fuel + 1, s =>
    match s with
    | [] => .error "Unexpected end of input"
    | c :: _ =>
      if isdigit c then (parseString s).map (fun p => (BValue.str p.1, p.2))
      else if c = 105 then (parseInt s).map (fun p => (BValue.int p.1, p.2))
      else if c = 108 then (parseList fuel s).map (fun p => (BValue.list p.1, p.2))
      else if c = 100 then (parseDict fuel s).map (fun p => (BValue.dict p.1, p.2))
      else .error "Invalid value type"

/-- `BencodeParser::parseList`: consume the leading `'l'`, then the
element loop. -/
def parseList : Nat → List Nat → Except String (List BValue × List Nat)
  | 0, _ => .error "recursion limit"
  | fuel + 1, s =>
    match s with
    | [] => .error "Invalid list format"
    | c :: s1 =>
      if c = 108 then parseListElems fuel s1 else .error "Invalid list format"

/-- The element loop of `parseList`: parse values until the closing `'e'`,
which is required. -/
def parseListElems : Nat → List Nat → Except String (List BValue × List Nat)
  | 0, _ => .error "recursion limit"
  | fuel + 1, s =>
    match s with
    | [] => .error "Invalid list format: missing 'e'"
    | c :: rest =>
      if c = 101 then .ok ([], rest)
      else
        match parseValue fuel (c :: rest) with
        | .error e => .error e
        | .ok (v, s1) =>
          match parseListElems fuel s1 with
          | .error e => .error e
          | .ok (vs, s2) => .ok (v :: vs, s2)

/-- `BencodeParser::parseDict`: consume the leading `'d'`, then the
entry loop starting from an empty map. -/
def parseDict : Nat → List Nat → Except String (Dict × List Nat)
  | 0, _ => .error "recursion limit"
  | fuel + 1, s =>
    match s with
    | [] => .error "Invalid dictionary format"
    | c :: s1 =>
      if c = 100 then parseDictEntries fuel s1 [] else .error "Invalid dictionary format"

/-- The entry loop of `parseDict`: until the closing `'e'`, require a
digit lead byte (a string key), parse the key and the value, and insert,
failing on a duplicate key. -/
def parseDictEntries : Nat → List Nat → Dict → Except String (Dict × List Nat)
  | 0, _, _ => .error "recursion limit"
  | fuel + 1, s, acc =>
    match s with
    | [] => .error "Invalid dictionary format: missing 'e'"
    | c :: rest =>
      if c = 101 then .ok (acc, rest)
      else if isdigit c then
        match parseString (c :: rest) with
        | .error e => .error e
        | .ok (key, s1) =>
          match parseValue fuel s1 with
          | .error e => .error e
          | .ok (v, s2) =>
            match mapInsert key v acc with
            | none => .error "Duplicate dictionary key"
            | some acc2 => parseDictEntries fuel s2 acc2
      else .error "Invalid dictionary key: must be string"

end

/-- `BencodeParser::parse`: parse one value from offset 0 and return it,
ignoring where the cursor ended up (trailing bytes are not inspected).
The fuel `2 * input.length + 4` is ample: the C++ recursion descends at
most once per input byte. -/
def parse (input : List Nat) : Except String BValue :=
  (parseValue (2 * input.length + 4) input).map Prod.fst

/-! ## The torrent metadata layer (torrentfile.cpp) -/

/-- `TorrentFile::FileInfo`: a path within the torrent and a length. -/
structure FileInfo where
  path : List Nat
  length : Int
deriving DecidableEq

/-- The fields of `TorrentFile` that `parseInfoDict` fills in. -/
structure TorrentInfo where
  pieceLength : Int
  pieces : List (List Nat)
  name : List Nat
  singleFile : Bool
  totalSize : Int
  files : List FileInfo
deriving DecidableEq

def keyPieceLength : List Nat := bytes "piece length"
def keyPieces : List Nat := bytes "pieces"
def keyName : List Nat := bytes "name"
def keyLength : List Nat := bytes "length"
def keyFiles : List Nat := bytes "files"
def keyPath : List Nat := bytes "path"

/-- The piece-splitting loop of `parseInfoDict`:
`for (i = 0; i < piecesStr.length(); i += 20) pieces.push_back(piecesStr.substr(i, 20))`,
written on the remaining suffix with a fuel bound (`substr` truncates, so
the last chunk may be shorter than 20). -/
def splitPiecesAux : Nat → List Nat → List (List Nat)
  | 0, _ => []
  | _ + 1, [] => []
  | fuel + 1, c :: rest => ((c :: rest).take 20) :: splitPiecesAux fuel ((c :: rest).drop 20)

/-- The piece hashes extracted from the `pieces` byte string. -/
def splitPieces (s : List Nat) : List (List Nat) := splitPiecesAux s.length s

/-- The path-building loop of `parseFilesList`: join the string components
with `'/'`, where the separator is emitted for every component of index
greater than 0, and non-string components are skipped. -/
def buildPathAux : List BValue → Nat → List Nat → List Nat
  | [], _, acc => acc
  | v :: rest, i, acc =>
    match v with
    | .str comp => buildPathAux rest (i + 1) ((if 0 < i then acc ++ [47] else acc) ++ comp)
    | _ => buildPathAux rest (i + 1) acc

def buildPath (pl : List BValue) : List Nat := buildPathAux pl 0 []

/-- The claim's notion of joining path components with `'/'` (byte 47). -/
def joinSlash : List (List Nat) → List Nat
  | [] => []
  | [s] => s
  | s :: rest => s ++ 47 :: joinSlash rest

/-- Helper for relating `buildPath` to `joinSlash`: the components after
the first, each preceded by a `'/'`. -/
def slashAll : List (List Nat) → List Nat
  | [] => []
  | s :: rest => 47 :: (s ++ slashAll rest)

/-- One iteration of the `parseFilesList` loop: the `FileInfo` the entry
contributes, or `none` when the entry is skipped (`continue`) — not a
dictionary, `length` missing or not an integer, or `path` missing or not
a list. -/
def fileEntry (e : BValue) : Option FileInfo :=
  match e with
  | .dict fd =>
    match mapFind keyLength fd with
    | some (.int len) =>
      match mapFind keyPath fd with
      | some (.list pl) => some ⟨buildPath pl, len⟩
      | _ => none
    | _ => none
  | _ => none

/-- A file entry the code skips, as the spec describes it: not a
dictionary, or missing/non-integer `length`, or missing/non-list `path`. -/
def malformedEntry (e : BValue) : Bool :=
  match e with
  | .dict fd =>
    match mapFind keyLength fd with
    | some (.int _) =>
      match mapFind keyPath fd with
      | some (.list _) => false
      | _ => true
    | _ => true
  | _ => true

/-- `TorrentFile::parseFilesList`: fold over the entries, appending each
accepted entry's `FileInfo` and accumulating `totalSize += length` on an
`int64_t`. -/
def parseFilesListAux : List BValue → List FileInfo → Int → List FileInfo × Int
  | [], fs, total => (fs, total)
  | e :: rest, fs, total =>
    match fileEntry e with
    | none => parseFilesListAux rest fs total
    | some fi => parseFilesListAux rest (fs ++ [fi]) (i64 (total + fi.length))

def parseFilesList (fl : List BValue) : List FileInfo × Int := parseFilesListAux fl [] 0

/-- The `name` member after `parseInfoDict` ran: the string under `name`,
or the default-constructed empty string when absent or not a string. -/
def infoName (d : Dict) : List Nat :=
  match mapFind keyName d with
  | some (.str n) => n
  | _ => []

/-- The multi-file tail of `parseInfoDict`: when no integer `length` is
present, a list `files` selects multi-file mode, anything else fails. -/
def infoFilesTail (d : Dict) (pl : Int) (ps : List Nat) : Except String TorrentInfo :=
  match mapFind keyFiles d with
  | some (.list fl) =>
    match parseFilesList fl with
    | (fs, total) => .ok ⟨pl, splitPieces ps, infoName d, false, total, fs⟩
  | _ => .error "Invalid torrent file: missing length or files"

/-- `TorrentFile::parseInfoDict`: require an integer `piece length` and a
string `pieces` (split into 20-byte chunks); read the optional string
`name` (defaulting to the empty string); then, if an integer `length` is
present, single-file mode (one file named `name`), otherwise the
multi-file tail. -/
def parseInfoDict (d : Dict) : Except String TorrentInfo :=
  match mapFind keyPieceLength d with
  | some (.int pl) =>
    match mapFind keyPieces d with
    | some (.str ps) =>
      match mapFind keyLength d with
      | some (.int len) =>
        .ok ⟨pl, splitPieces ps, infoName d, true, len, [⟨infoName d, len⟩]⟩
      | _ => infoFilesTail d pl ps
    | _ => .error "Invalid torrent file: missing pieces"
  | _ => .error "Invalid torrent file: missing piece length"

/-! ## Canonical encodings, for stating the decode theorems -/

/-- Decimal digit bytes of a natural number, most significant first
(fuel-driven so that it evaluates by `rfl`). -/
def digitsAux : Nat → Nat → List Nat
  | 0, _ => []
  | fuel + 1, n => if n < 10 then [48 + n] else digitsAux fuel (n / 10) ++ [48 + n % 10]

def natDigits (n : Nat) : List Nat := digitsAux (n + 1) n

/-- The canonical Bencode encoding of an integer: `'i'`, then the decimal
digits with a `'-'` prefix if negative, then `'e'`. -/
def encInt (n : Int) : List Nat :=
  105 :: ((if n < 0 then 45 :: natDigits n.natAbs else natDigits n.toNat) ++ [101])

/-- The canonical Bencode encoding of a byte string: the decimal digits of
its length, a colon, then the bytes. -/
def encStr (b : List Nat) : List Nat := natDigits b.length ++ 58 :: b

/-- The encoding of a sequence of dictionary entries: for each pair, the
string encoding of its key followed by the bytes given as the encoding of
its value.  A complete dictionary encoding is `'d'`, these bytes, and a
closing byte. -/
def encDictEntries : List (List Nat × List Nat) → List Nat
  | [] => []
  | (k, ve) :: rest => encStr k ++ (ve ++ encDictEntries rest)

/-- A concrete info dictionary whose `pieces` string is 5 bytes long (not
a multiple of 20). -/
def infoDictA : Dict :=
  [(keyPieceLength, .int 5), (keyPieces, .str (bytes "AAAAA")), (keyLength, .int 10)]

/-- What `parseInfoDict` produces for `infoDictA`. -/
def infoA : TorrentInfo := ⟨5, [bytes "AAAAA"], [], true, 10, [⟨[], 10⟩]⟩

/-- A concrete info dictionary carrying both an integer `length` and a
list `files`. -/
def infoDictB : Dict :=
  [(keyFiles, .list [.int 1]), (keyLength, .int 10), (keyName, .str (bytes "x")),
    (keyPieceLength, .int 5), (keyPieces, .str (bytes "AAAAA"))]

/-- What `parseInfoDict` produces for `infoDictB`: single-file mode. -/
def infoB : TorrentInfo := ⟨5, [bytes "AAAAA"], bytes "x", true, 10, [⟨bytes "x", 10⟩]⟩

/-- The key-sortedness invariant of a decoded dictionary: the entries are
strictly increasing in `lexLt` on the keys (the iteration order of a
`std::map`). -/
def keysSorted (d : Dict) : Prop :=
  List.Pairwise (fun a b : List Nat × BValue => lexLt a.1 b.1 = true) d

/-! ## The lexicographic order underlying the dictionary -/

theorem lexLt_cons (x y : Nat) (xs ys : List Nat) :
    lexLt (x :: xs) (y :: ys) = true ↔ x < y ∨ (x = y ∧ lexLt xs ys = true) := by
  rw [lexLt]
  split_ifs with h1 h2
  · simp [h1]
  · simp only [false_iff]
    rintro (h | ⟨rfl, -⟩) <;> omega
  · have hxy : x = y := by omega
    simp [hxy]

theorem lexLt_nil_cons (y : Nat) (ys : List Nat) : lexLt [] (y :: ys) = true := rfl

theorem lexLt_nil_right : ∀ a : List Nat, lexLt a [] = false
  | [] => rfl
  | _ :: _ => rfl

theorem lexLt_trans : ∀ {a b c : List Nat},
    lexLt a b = true → lexLt b c = true → lexLt a c = true := by
  intro a
  induction a with
  | nil =>
    intro b c h1 h2
    cases c with
    | nil =>
      cases b with
      | nil => exact h1
      | cons y ys => rw [lexLt_nil_right] at h2; exact absurd h2 (by simp)
    | cons z zs => exact lexLt_nil_cons z zs
  | cons x xs ih =>
    intro b c h1 h2
    cases b with
    | nil => rw [lexLt_nil_right] at h1; exact absurd h1 (by simp)
    | cons y ys =>
      cases c with
      | nil => rw [lexLt_nil_right] at h2; exact absurd h2 (by simp)
      | cons z zs =>
        rw [lexLt_cons] at h1 h2 ⊢
        rcases h1 with h1 | ⟨rfl, h1⟩ <;> rcases h2 with h2 | ⟨rfl, h2⟩
        · exact Or.inl (Nat.lt_trans h1 h2)
        · exact Or.inl h1
        · exact Or.inl h2
        · exact Or.inr ⟨rfl, ih h1 h2⟩

theorem lexLt_irrefl : ∀ a : List Nat, lexLt a a = false := by
  intro a
  induction a with
  | nil => rfl
  | cons x xs ih => rw [lexLt]; simp [Nat.lt_irrefl, ih]

theorem lexLt_true_ne {a b : List Nat} (h : lexLt a b = true) : a ≠ b := by
  rintro rfl
  rw [lexLt_irrefl] at h
  exact absurd h (by simp)

/-! ## std::map insertion keeps the entries key-sorted -/

theorem mapInsert_mem {k : List Nat} {v : BValue} :
    ∀ {l l' : Dict}, mapInsert k v l = some l' → ∀ b ∈ l', b ∈ l ∨ b = (k, v) := by
  intro l
  induction l with
  | nil =>
    intro l' h b hb
    rw [mapInsert] at h
    injection h with h
    subst h
    simp only [List.mem_singleton] at hb
    exact Or.inr hb
  | cons p rest ih =>
    intro l' h b hb
    obtain ⟨k', v'⟩ := p
    rw [mapInsert] at h
    split_ifs at h with h1 h2
    · injection h with h
      subst h
      rcases List.mem_cons.mp hb with rfl | hb
      · exact Or.inr rfl
      · exact Or.inl hb
    · cases hmi : mapInsert k v rest with
      | none => rw [hmi] at h; exact absurd h (by simp)
      | some rest' =>
        rw [hmi] at h
        obtain rfl : (k', v') :: rest' = l' := by simpa using h
        rcases List.mem_cons.mp hb with rfl | hb
        · exact Or.inl (List.mem_cons_self _ _)
        · rcases ih hmi b hb with hmem | heq
          · exact Or.inl (List.mem_cons_of_mem _ hmem)
          · exact Or.inr heq

theorem mapInsert_sorted {k : List Nat} {v : BValue} :
    ∀ {l l' : Dict}, keysSorted l → mapInsert k v l = some l' → keysSorted l' := by
  intro l
  induction l with
  | nil =>
    intro l' _ h
    rw [mapInsert] at h
    injection h with h
    subst h
    exact List.pairwise_singleton _ _
  | cons p rest ih =>
    intro l' hs h
    obtain ⟨k', v'⟩ := p
    rcases hs with _ | ⟨hhead, hrest⟩
    rw [mapInsert] at h
    split_ifs at h with h1 h2
    · injection h with h
      subst h
      refine List.Pairwise.cons ?_ (List.Pairwise.cons hhead hrest)
      intro b hb
      rcases List.mem_cons.mp hb with rfl | hb
      · exact h1
      · exact lexLt_trans h1 (hhead b hb)
    · cases hmi : mapInsert k v rest with
      | none => rw [hmi] at h; exact absurd h (by simp)
      | some rest' =>
        rw [hmi] at h
        obtain rfl : (k', v') :: rest' = l' := by simpa using h
        refine List.Pairwise.cons ?_ (ih hrest hmi)
        intro b hb
        rcases mapInsert_mem hmi b hb with hmem | heq
        · exact hhead b hmem
        · rw [heq]; exact h2

/-! ## Every dictionary the decoder builds is key-sorted with distinct keys -/

theorem parseDictEntries_sorted :
    ∀ (fuel : Nat) (s : List Nat) (acc d : Dict) (r : List Nat),
      keysSorted acc → parseDictEntries fuel s acc = .ok (d, r) → keysSorted d := by
  intro fuel
  induction fuel with
  | zero =>
    intro s acc d r _ h
    exact absurd h (by simp [parseDictEntries])
  | succ fuel ih =>
    intro s acc d r hacc h
    rw [parseDictEntries.eq_def] at h
    cases s with
    | nil => exact absurd h (by simp)
    | cons c rest =>
      simp only at h
      split_ifs at h with h1 h2
      · injection h with h
        injection h with h _
        subst h
        exact hacc
      · cases hps : parseString (c :: rest) with
        | error e => rw [hps] at h; exact absurd h (by simp)
        | ok p =>
          obtain ⟨key, s1⟩ := p
          rw [hps] at h
          simp only at h
          cases hpv : parseValue fuel s1 with
          | error e => rw [hpv] at h; exact absurd h (by simp)
          | ok q =>
            obtain ⟨v, s2⟩ := q
            rw [hpv] at h
            simp only at h
            cases hmi : mapInsert key v acc with
            | none => rw [hmi] at h; exact absurd h (by simp)
            | some acc2 =>
              rw [hmi] at h
              exact ih s2 acc2 d r (mapInsert_sorted hacc hmi) h

theorem parseDict_sorted {fuel : Nat} {s : List Nat} {d : Dict} {r : List Nat}
    (h : parseDict fuel s = .ok (d, r)) : keysSorted d := by
  cases fuel with
  | zero => exact absurd h (by simp [parseDict])
  | succ fuel =>
    rw [parseDict.eq_def] at h
    cases s with
    | nil => exact absurd h (by simp)
    | cons c s1 =>
      simp only at h
      split_ifs at h with h1
      exact parseDictEntries_sorted fuel s1 [] d r List.Pairwise.nil h

theorem keys_nodup {d : Dict} (h : keysSorted d) : (d.map Prod.fst).Nodup := by
  refine List.pairwise_map.mpr ?_
  exact h.imp fun hab => lexLt_true_ne hab

/-! ## Decimal digit strings -/

theorem digitsAux_congr : ∀ (f g n : Nat), n < f → n < g → digitsAux f n = digitsAux g n := by
  intro f
  induction f with
  | zero => intro g n h; omega
  | succ f ih =>
    intro g n hf hg
    cases g with
    | zero => omega
    | succ g =>
      rw [digitsAux, digitsAux]
      by_cases h10 : n < 10
      · rw [if_pos h10, if_pos h10]
      · rw [if_neg h10, if_neg h10]
        have hd : n / 10 < n := Nat.div_lt_self (by omega) (by omega)
        rw [ih g (n / 10) (by omega) (by omega)]

theorem natDigits_eq (n : Nat) :
    natDigits n = if n < 10 then [48 + n] else natDigits (n / 10) ++ [48 + n % 10] := by
  rw [natDigits, digitsAux]
  by_cases h10 : n < 10
  · rw [if_pos h10, if_pos h10]
  · rw [if_neg h10, if_neg h10]
    have hd : n / 10 < n := Nat.div_lt_self (by omega) (by omega)
    rw [natDigits, digitsAux_congr n (n / 10 + 1) (n / 10) (by omega) (by omega)]

theorem natDigits_cons (n : Nat) :
    ∃ h t, natDigits n = h :: t ∧ isdigit h = true ∧ (n ≠ 0 → h ≠ 48) := by
  induction n using Nat.strong_induction_on with
  | _ n ih =>
    rw [natDigits_eq]
    by_cases h10 : n < 10
    · rw [if_pos h10]
      refine ⟨48 + n, [], rfl, ?_, ?_⟩
      · simp only [isdigit, Bool.and_eq_true, decide_eq_true_eq]; omega
      · intro hn; omega
    · rw [if_neg h10]
      have hd : n / 10 < n := Nat.div_lt_self (by omega) (by omega)
      obtain ⟨h, t, heq, hdig, hne⟩ := ih (n / 10) hd
      exact ⟨h, t ++ [48 + n % 10], by rw [heq]; rfl, hdig,
        fun _ => hne (by omega)⟩

theorem natDigits_all_digit : ∀ n : Nat, ∀ c ∈ natDigits n, isdigit c = true := by
  intro n
  induction n using Nat.strong_induction_on with
  | _ n ih =>
    intro c hc
    rw [natDigits_eq] at hc
    by_cases h10 : n < 10
    · rw [if_pos h10] at hc
      rcases List.mem_singleton.mp hc with rfl
      simp only [isdigit, Bool.and_eq_true, decide_eq_true_eq]; omega
    · rw [if_neg h10] at hc
      have hd : n / 10 < n := Nat.div_lt_self (by omega) (by omega)
      rcases List.mem_append.mp hc with hc | hc
      · exact ih (n / 10) hd c hc
      · rcases List.mem_singleton.mp hc with rfl
        simp only [isdigit, Bool.and_eq_true, decide_eq_true_eq]; omega

theorem natDigits_foldl (n : Nat) : ∀ acc : Nat,
    List.foldl (fun (a : Nat) (c : Nat) => a * 10 + (c - 48)) acc (natDigits n)
      = acc * 10 ^ (natDigits n).length + n := by
  induction n using Nat.strong_induction_on with
  | _ n ih =>
    intro acc
    rw [natDigits_eq]
    by_cases h10 : n < 10
    · rw [if_pos h10]
      simp only [List.foldl_cons, List.foldl_nil, List.length_singleton, pow_one]
      omega
    · rw [if_neg h10]
      have hd : n / 10 < n := Nat.div_lt_self (by omega) (by omega)
      rw [List.foldl_append, ih (n / 10) hd acc, List.foldl_cons, List.foldl_nil]
      simp only [List.length_append, List.length_singleton, pow_succ, ← mul_assoc]
      generalize acc * 10 ^ (natDigits (n / 10)).length = Y
      omega

theorem natDigits_foldl_int (n : Nat) : ∀ acc : Int,
    List.foldl (fun (a : Int) (c : Nat) => a * 10 + ((c : Int) - 48)) acc (natDigits n)
      = acc * 10 ^ (natDigits n).length + n := by
  induction n using Nat.strong_induction_on with
  | _ n ih =>
    intro acc
    rw [natDigits_eq]
    by_cases h10 : n < 10
    · rw [if_pos h10]
      simp only [List.foldl_cons, List.foldl_nil, List.length_singleton, pow_one]
      push_cast
      ring
    · rw [if_neg h10]
      have hd : n / 10 < n := Nat.div_lt_self (by omega) (by omega)
      rw [List.foldl_append, ih (n / 10) hd acc, List.foldl_cons, List.foldl_nil]
      simp only [List.length_append, List.length_singleton, pow_succ, ← mul_assoc]
      push_cast
      generalize acc * 10 ^ (natDigits (n / 10)).length = Y
      omega

/-! ## The size_t length accumulation of parseString -/

theorem foldl_digits_mono (ds : List Nat) : ∀ acc : Nat,
    acc ≤ List.foldl (fun (a : Nat) (c : Nat) => a * 10 + (c - 48)) acc ds := by
  induction ds with
  | nil => intro acc; exact Nat.le_refl acc
  | cons c rest ih =>
    intro acc
    rw [List.foldl_cons]
    exact Nat.le_trans (by omega) (ih (acc * 10 + (c - 48)))

theorem strLenLoop_ok (ds : List Nat) : ∀ acc : Nat,
    (∀ c ∈ ds, isdigit c = true) →
    List.foldl (fun (a : Nat) (c : Nat) => a * 10 + (c - 48)) acc ds < 2 ^ 64 →
    strLenLoop ds acc
      = .ok (List.foldl (fun (a : Nat) (c : Nat) => a * 10 + (c - 48)) acc ds) := by
  induction ds with
  | nil => intro acc _ _; rfl
  | cons c rest ih =>
    intro acc hall hlt
    rw [List.foldl_cons] at hlt ⊢
    rw [strLenLoop, if_pos (hall c (List.mem_cons_self _ _))]
    have hle : acc * 10 + (c - 48)
        ≤ List.foldl (fun (a : Nat) (c : Nat) => a * 10 + (c - 48)) (acc * 10 + (c - 48)) rest :=
      foldl_digits_mono rest _
    have hu : u64 (acc * 10 + (c - 48)) = acc * 10 + (c - 48) :=
      Nat.mod_eq_of_lt (Nat.lt_of_le_of_lt hle hlt)
    rw [hu]
    exact ih _ (fun c' hc' => hall c' (List.mem_cons_of_mem _ hc')) hlt

/-! ## The int64_t digit accumulation of parseInt -/

theorem i64_modEq (z : Int) : i64 z % 2 ^ 64 = z % 2 ^ 64 := by
  rw [i64, Int.sub_emod, Int.emod_emod_of_dvd _ dvd_rfl, ← Int.sub_emod,
    add_sub_cancel_right]

theorem i64_congr {a b : Int} (h : a % 2 ^ 64 = b % 2 ^ 64) : i64 a = i64 b := by
  rw [i64, i64]
  have : (a + 2 ^ 63) % 2 ^ 64 = (b + 2 ^ 63) % 2 ^ 64 := by
    rw [Int.add_emod, h, ← Int.add_emod]
  rw [this]

theorem i64_eq_self {z : Int} (h1 : -(2 ^ 63) ≤ z) (h2 : z < 2 ^ 63) : i64 z = z := by
  rw [i64]
  have e63 : (2 : Int) ^ 63 = 9223372036854775808 := by norm_num
  have e64 : (2 : Int) ^ 64 = 18446744073709551616 := by norm_num
  rw [e63, e64] at *
  rw [Int.emod_eq_of_lt (by omega) (by omega)]
  omega

theorem intDigitsLoop_digits (ds : List Nat) : ∀ (rest : List Nat) (acc : Int),
    (∀ c ∈ ds, isdigit c = true) →
    (∀ c t, rest = c :: t → isdigit c = false) →
    intDigitsLoop (ds ++ rest) acc =
      (List.foldl (fun (a : Int) (c : Nat) => i64 (a * 10 + ((c : Int) - 48))) acc ds, rest) := by
  induction ds with
  | nil =>
    intro rest acc _ hrest
    rw [List.nil_append, List.foldl_nil]
    cases rest with
    | nil => rfl
    | cons c t => rw [intDigitsLoop, if_neg (by rw [hrest c t rfl]; exact Bool.false_ne_true)]
  | cons c ds ih =>
    intro rest acc hall hrest
    rw [List.cons_append, intDigitsLoop, if_pos (hall c (List.mem_cons_self _ _)),
      List.foldl_cons]
    exact ih rest _ (fun c' hc' => hall c' (List.mem_cons_of_mem _ hc')) hrest

theorem i64_fold (ds : List Nat) : ∀ acc : Int,
    List.foldl (fun (a : Int) (c : Nat) => i64 (a * 10 + ((c : Int) - 48))) (i64 acc) ds
      = i64 (List.foldl (fun (a : Int) (c : Nat) => a * 10 + ((c : Int) - 48)) acc ds) := by
  induction ds with
  | nil => intro acc; rfl
  | cons c rest ih =>
    intro acc
    rw [List.foldl_cons, List.foldl_cons]
    have hstep : i64 (i64 acc * 10 + ((c : Int) - 48)) = i64 (acc * 10 + ((c : Int) - 48)) := by
      refine i64_congr ?_
      rw [Int.add_emod, Int.mul_emod, i64_modEq, ← Int.mul_emod, ← Int.add_emod]
    rw [hstep]
    exact ih (acc * 10 + ((c : Int) - 48))

theorem i64_zero : i64 0 = 0 := by decide

theorem intDigitsLoop_natDigits (m : Nat) (rest : List Nat)
    (hrest : ∀ c t, rest = c :: t → isdigit c = false) :
    intDigitsLoop (natDigits m ++ rest) 0 = (i64 m, rest) := by
  rw [intDigitsLoop_digits (natDigits m) rest 0 (natDigits_all_digit m) hrest]
  have h0 : (0 : Int) = i64 0 := i64_zero.symm
  rw [h0, i64_fold, natDigits_foldl_int m 0]
  norm_num

/-! ## Unfolding equations for parseInt -/

theorem parseIntCore_cons (negative : Bool) (c : Nat) (rest2 : List Nat) :
    parseIntCore negative (c :: rest2) =
      if isdigit c then
        if c == 48 && leadZeroBad rest2 then .error "Invalid integer format: leading zeros"
        else
          match intDigitsLoop (c :: rest2) 0 with
          | (result, s3) =>
            match s3 with
            | [] => .error "Invalid integer format: missing 'e'"
            | e1 :: s4 =>
              if e1 = 101 then .ok ((if negative then i64 (-result) else result), s4)
              else .error "Invalid integer format: missing 'e'"
      else .error "Invalid integer format: no digits" := rfl

theorem parseInt_cons (c : Nat) (s1 : List Nat) :
    parseInt (c :: s1) =
      if c = 105 then
        match s1 with
        | [] => .error "Invalid integer format: no digits"
        | c1 :: t => if c1 = 45 then parseIntCore true t else parseIntCore false (c1 :: t)
      else .error "Invalid integer format" := rfl

/-! ## Unfolding equations for the fuel-driven parsers -/

theorem parseValue_zero (s : List Nat) : parseValue 0 s = .error "recursion limit" := rfl

theorem parseValue_succ_nil (fuel : Nat) :
    parseValue (fuel + 1) [] = .error "Unexpected end of input" := rfl

theorem parseValue_succ_eq (fuel : Nat) (c : Nat) (rest : List Nat) :
    parseValue (fuel + 1) (c :: rest) =
      if isdigit c then (parseString (c :: rest)).map (fun p => (BValue.str p.1, p.2))
      else if c = 105 then (parseInt (c :: rest)).map (fun p => (BValue.int p.1, p.2))
      else if c = 108 then (parseList fuel (c :: rest)).map (fun p => (BValue.list p.1, p.2))
      else if c = 100 then (parseDict fuel (c :: rest)).map (fun p => (BValue.dict p.1, p.2))
      else .error "Invalid value type" := rfl

theorem parseList_zero (s : List Nat) : parseList 0 s = .error "recursion limit" := rfl

theorem parseList_succ_nil (fuel : Nat) :
    parseList (fuel + 1) [] = .error "Invalid list format" := rfl

theorem parseList_succ_eq (fuel : Nat) (c : Nat) (s1 : List Nat) :
    parseList (fuel + 1) (c :: s1) =
      if c = 108 then parseListElems fuel s1 else .error "Invalid list format" := rfl

theorem parseListElems_zero (s : List Nat) :
    parseListElems 0 s = .error "recursion limit" := rfl

theorem parseListElems_succ_nil (fuel : Nat) :
    parseListElems (fuel + 1) [] = .error "Invalid list format: missing 'e'" := rfl

theorem parseListElems_succ_eq (fuel : Nat) (c : Nat) (rest : List Nat) :
    parseListElems (fuel + 1) (c :: rest) =
      if c = 101 then .ok ([], rest)
      else
        match parseValue fuel (c :: rest) with
        | .error e => .error e
        | .ok (v, s1) =>
          match parseListElems fuel s1 with
          | .error e => .error e
          | .ok (vs, s2) => .ok (v :: vs, s2) := rfl

theorem parseDict_zero (s : List Nat) : parseDict 0 s = .error "recursion limit" := rfl

theorem parseDict_succ_nil (fuel : Nat) :
    parseDict (fuel + 1) [] = .error "Invalid dictionary format" := rfl

theorem parseDict_succ_eq (fuel : Nat) (c : Nat) (s1 : List Nat) :
    parseDict (fuel + 1) (c :: s1) =
      if c = 100 then parseDictEntries fuel s1 [] else .error "Invalid dictionary format" := rfl

theorem parseDictEntries_zero (s : List Nat) (acc : Dict) :
    parseDictEntries 0 s acc = .error "recursion limit" := rfl

theorem parseDictEntries_succ_nil (fuel : Nat) (acc : Dict) :
    parseDictEntries (fuel + 1) [] acc = .error "Invalid dictionary format: missing 'e'" := rfl

theorem parseDictEntries_succ_eq (fuel : Nat) (c : Nat) (rest : List Nat) (acc : Dict) :
    parseDictEntries (fuel + 1) (c :: rest) acc =
      if c = 101 then .ok (acc, rest)
      else if isdigit c then
        match parseString (c :: rest) with
        | .error e => .error e
        | .ok (key, s1) =>
          match parseValue fuel s1 with
          | .error e => .error e
          | .ok (v, s2) =>
            match mapInsert key v acc with
            | none => .error "Duplicate dictionary key"
            | some acc2 => parseDictEntries fuel s2 acc2
      else .error "Invalid dictionary key: must be string" := rfl

/-! ## Appending bytes after a successfully parsed value changes nothing

The sub-parsers never look past the bytes they consume on a success path,
so appending arbitrary bytes to the input leaves a successful result
unchanged (with the appended bytes landing in the unconsumed suffix). -/

theorem findColon_some_lt : ∀ {s : List Nat} {i : Nat}, findColon s = some i → i < s.length := by
  intro s
  induction s with
  | nil => intro i h; exact absurd h (by simp [findColon])
  | cons c rest ih =>
    intro i h
    rw [findColon] at h
    simp only [List.length_cons]
    split_ifs at h with hc
    · injection h with h
      omega
    · cases hfc : findColon rest with
      | none => rw [hfc] at h; exact absurd h (by simp)
      | some j =>
        rw [hfc] at h
        have hji : j + 1 = i := by simpa using h
        have hjr := ih hfc
        omega

theorem findColon_append (g : List Nat) :
    ∀ {s : List Nat} {i : Nat}, findColon s = some i → findColon (s ++ g) = some i := by
  intro s
  induction s with
  | nil => intro i h; exact absurd h (by simp [findColon])
  | cons c rest ih =>
    intro i h
    rw [findColon] at h
    rw [List.cons_append, findColon]
    split_ifs at h ⊢ with hc
    · exact h
    · cases hfc : findColon rest with
      | none => rw [hfc] at h; exact absurd h (by simp)
      | some j =>
        rw [hfc] at h
        rw [ih hfc]
        exact h

theorem parseString_append (g : List Nat) :
    ∀ {s v r : List Nat}, parseString s = .ok (v, r) → parseString (s ++ g) = .ok (v, r ++ g) := by
  intro s v r h
  cases hfc : findColon s with
  | none => rw [parseString.eq_def, hfc] at h; exact absurd h (by simp)
  | some i =>
    have hi : i < s.length := findColon_some_lt hfc
    rw [parseString.eq_def, hfc] at h
    rw [parseString.eq_def, findColon_append g hfc]
    simp only at h ⊢
    rw [List.take_append_of_le_length (by omega)]
    by_cases hlz : 1 < (s.take i).length ∧ (s.take i).headD 0 = 48
    · rw [if_pos hlz] at h
      exact absurd h (by simp)
    · rw [if_neg hlz] at h ⊢
      cases hsl : strLenLoop (s.take i) 0 with
      | error e => rw [hsl] at h; exact absurd h (by simp)
      | ok len =>
        rw [hsl] at h
        simp only at h ⊢
        rw [List.drop_append_of_le_length (by omega)]
        by_cases h1 : (s.drop (i + 1)).length < len
        · rw [if_pos h1] at h
          exact absurd h (by simp)
        · rw [if_neg h1] at h
          rw [if_neg (by rw [List.length_append]; omega)]
          simp only [Except.ok.injEq, Prod.mk.injEq] at h
          obtain ⟨rfl, rfl⟩ := h
          rw [List.take_append_of_le_length (by omega),
            List.drop_append_of_le_length (by omega)]

theorem intDigitsLoop_append (g : List Nat) :
    ∀ (s : List Nat) (acc res : Int) (c3 : Nat) (r3 : List Nat),
      intDigitsLoop s acc = (res, c3 :: r3) →
      intDigitsLoop (s ++ g) acc = (res, c3 :: (r3 ++ g)) := by
  intro s
  induction s with
  | nil =>
    intro acc res c3 r3 h
    rw [intDigitsLoop] at h
    exact absurd h (by simp)
  | cons c rest ih =>
    intro acc res c3 r3 h
    rw [intDigitsLoop] at h
    rw [List.cons_append, intDigitsLoop]
    split_ifs at h ⊢ with hd
    · exact ih _ res c3 r3 h
    · simp only [Prod.mk.injEq, List.cons.injEq] at h
      obtain ⟨rfl, rfl, rfl⟩ := h
      rfl

theorem parseIntCore_append (g : List Nat) :
    ∀ {negative : Bool} {s2 : List Nat} {n : Int} {r : List Nat},
      parseIntCore negative s2 = .ok (n, r) →
      parseIntCore negative (s2 ++ g) = .ok (n, r ++ g) := by
  intro negative s2 n r h
  cases s2 with
  | nil => rw [parseIntCore.eq_def] at h; exact absurd h (by simp)
  | cons c rest2 =>
    rw [parseIntCore_cons] at h
    rw [List.cons_append, parseIntCore_cons]
    by_cases hd : isdigit c
    case neg =>
      rw [if_neg hd] at h
      exact absurd h (by simp)
    rw [if_pos hd] at h ⊢
    by_cases hlz : (c == 48 && leadZeroBad rest2) = true
    case pos =>
      rw [if_pos hlz] at h
      exact absurd h (by simp)
    rw [if_neg hlz] at h
    cases hp : intDigitsLoop (c :: rest2) 0 with
    | mk result s3 =>
      rw [hp] at h
      simp only at h
      cases s3 with
      | nil => exact absurd h (by simp)
      | cons e1 s4 =>
        simp only at h
        by_cases he : e1 = 101
        case neg =>
          rw [if_neg he] at h
          exact absurd h (by simp)
        subst he
        rw [if_pos rfl] at h
        simp only [Except.ok.injEq, Prod.mk.injEq] at h
        obtain ⟨rfl, rfl⟩ := h
        have hlzg : (c == 48 && leadZeroBad (rest2 ++ g)) = false := by
          by_cases hc48 : c = 48
          · subst hc48
            have hlb : leadZeroBad rest2 = false := by
              cases hb : leadZeroBad rest2 with
              | false => rfl
              | true => exact absurd (by rw [hb]; rfl) hlz
            cases rest2 with
            | nil =>
              rw [show intDigitsLoop (48 :: ([] : List Nat)) 0 = (i64 0, []) from rfl] at hp
              exact absurd hp (by simp)
            | cons c2 t =>
              have hc2 : c2 = 101 := by simpa [leadZeroBad] using hlb
              subst hc2
              rfl
          · have hb : (c == 48) = false := beq_eq_false_iff_ne.mpr hc48
            rw [hb, Bool.false_and]
        rw [if_neg (by rw [hlzg]; exact Bool.false_ne_true)]
        have hloopg := intDigitsLoop_append g (c :: rest2) 0 result 101 s4 hp
        rw [List.cons_append] at hloopg
        rw [hloopg]
        rfl

theorem parseInt_append (g : List Nat) :
    ∀ {s : List Nat} {n : Int} {r : List Nat},
      parseInt s = .ok (n, r) → parseInt (s ++ g) = .ok (n, r ++ g) := by
  intro s n r h
  cases s with
  | nil => rw [parseInt.eq_def] at h; exact absurd h (by simp)
  | cons c s1 =>
    rw [parseInt_cons] at h
    rw [List.cons_append, parseInt_cons]
    by_cases hc : c = 105
    case neg =>
      rw [if_neg hc] at h
      exact absurd h (by simp)
    rw [if_pos hc] at h ⊢
    cases s1 with
    | nil => exact absurd h (by simp)
    | cons c1 t =>
      simp only at h
      rw [List.cons_append]
      simp only
      by_cases h45 : c1 = 45
      · rw [if_pos h45] at h ⊢
        exact parseIntCore_append g h
      · rw [if_neg h45] at h ⊢
        have := parseIntCore_append g h
        rw [List.cons_append] at this
        exact this

/-- The combined trailing-bytes lemma for the recursive parsers: a success
at some fuel is preserved, with the same value, when arbitrary bytes are
appended after the input — the appended bytes simply stay unconsumed. -/
theorem parsers_append (g : List Nat) : ∀ fuel : Nat,
    (∀ s v r, parseValue fuel s = .ok (v, r) → parseValue fuel (s ++ g) = .ok (v, r ++ g))
    ∧ (∀ s v r, parseList fuel s = .ok (v, r) → parseList fuel (s ++ g) = .ok (v, r ++ g))
    ∧ (∀ s v r, parseListElems fuel s = .ok (v, r) →
        parseListElems fuel (s ++ g) = .ok (v, r ++ g))
    ∧ (∀ s v r, parseDict fuel s = .ok (v, r) → parseDict fuel (s ++ g) = .ok (v, r ++ g))
    ∧ (∀ s acc v r, parseDictEntries fuel s acc = .ok (v, r) →
        parseDictEntries fuel (s ++ g) acc = .ok (v, r ++ g)) := by
  intro fuel
  induction fuel with
  | zero =>
    refine ⟨?_, ?_, ?_, ?_, ?_⟩
    · intro s v r h; rw [parseValue_zero] at h; exact absurd h (by simp)
    · intro s v r h; rw [parseList_zero] at h; exact absurd h (by simp)
    · intro s v r h; rw [parseListElems_zero] at h; exact absurd h (by simp)
    · intro s v r h; rw [parseDict_zero] at h; exact absurd h (by simp)
    · intro s acc v r h; rw [parseDictEntries_zero] at h; exact absurd h (by simp)
  | succ fuel ih =>
    obtain ⟨ihV, ihL, ihLE, ihD, ihDE⟩ := ih
    refine ⟨?_, ?_, ?_, ?_, ?_⟩
    · -- parseValue
      intro s v r h
      cases s with
      | nil => rw [parseValue_succ_nil] at h; exact absurd h (by simp)
      | cons c rest =>
        rw [parseValue_succ_eq] at h
        rw [List.cons_append, parseValue_succ_eq]
        by_cases hd : isdigit c
        · rw [if_pos hd] at h ⊢
          cases hps : parseString (c :: rest) with
          | error e => rw [hps] at h; exact absurd h (by simp [Except.map])
          | ok p =>
            obtain ⟨sv, sr⟩ := p
            rw [hps] at h
            simp only [Except.map, Except.ok.injEq, Prod.mk.injEq] at h
            obtain ⟨rfl, rfl⟩ := h
            have hpsg := parseString_append g hps
            rw [List.cons_append] at hpsg
            rw [hpsg]
            rfl
        · rw [if_neg hd] at h ⊢
          by_cases hc105 : c = 105
          · rw [if_pos hc105] at h ⊢
            cases hpi : parseInt (c :: rest) with
            | error e => rw [hpi] at h; exact absurd h (by simp [Except.map])
            | ok p =>
              obtain ⟨iv, ir⟩ := p
              rw [hpi] at h
              simp only [Except.map, Except.ok.injEq, Prod.mk.injEq] at h
              obtain ⟨rfl, rfl⟩ := h
              have hpig := parseInt_append g hpi
              rw [List.cons_append] at hpig
              rw [hpig]
              rfl
          · rw [if_neg hc105] at h ⊢
            by_cases hc108 : c = 108
            · rw [if_pos hc108] at h ⊢
              cases hpl : parseList fuel (c :: rest) with
              | error e => rw [hpl] at h; exact absurd h (by simp [Except.map])
              | ok p =>
                obtain ⟨lv, lr⟩ := p
                rw [hpl] at h
                simp only [Except.map, Except.ok.injEq, Prod.mk.injEq] at h
                obtain ⟨rfl, rfl⟩ := h
                have hplg := ihL (c :: rest) lv lr hpl
                rw [List.cons_append] at hplg
                rw [hplg]
                rfl
            · rw [if_neg hc108] at h ⊢
              by_cases hc100 : c = 100
              · rw [if_pos hc100] at h ⊢
                cases hpd : parseDict fuel (c :: rest) with
                | error e => rw [hpd] at h; exact absurd h (by simp [Except.map])
                | ok p =>
                  obtain ⟨dv, dr⟩ := p
                  rw [hpd] at h
                  simp only [Except.map, Except.ok.injEq, Prod.mk.injEq] at h
                  obtain ⟨rfl, rfl⟩ := h
                  have hpdg := ihD (c :: rest) dv dr hpd
                  rw [List.cons_append] at hpdg
                  rw [hpdg]
                  rfl
              · rw [if_neg hc100] at h
                exact absurd h (by simp)
    · -- parseList
      intro s v r h
      cases s with
      | nil => rw [parseList_succ_nil] at h; exact absurd h (by simp)
      | cons c s1 =>
        rw [parseList_succ_eq] at h
        rw [List.cons_append, parseList_succ_eq]
        by_cases hc : c = 108
        · rw [if_pos hc] at h ⊢
          exact ihLE s1 v r h
        · rw [if_neg hc] at h
          exact absurd h (by simp)
    · -- parseListElems
      intro s v r h
      cases s with
      | nil => rw [parseListElems_succ_nil] at h; exact absurd h (by simp)
      | cons c rest =>
        rw [parseListElems_succ_eq] at h
        rw [List.cons_append, parseListElems_succ_eq]
        by_cases hc : c = 101
        · rw [if_pos hc] at h ⊢
          simp only [Except.ok.injEq, Prod.mk.injEq] at h
          obtain ⟨rfl, rfl⟩ := h
          rfl
        · rw [if_neg hc] at h ⊢
          cases hpv : parseValue fuel (c :: rest) with
          | error e => rw [hpv] at h; exact absurd h (by simp)
          | ok p =>
            obtain ⟨v1, s1⟩ := p
            rw [hpv] at h
            simp only at h
            cases hple : parseListElems fuel s1 with
            | error e => rw [hple] at h; exact absurd h (by simp)
            | ok q =>
              obtain ⟨vs, s2⟩ := q
              rw [hple] at h
              simp only [Except.ok.injEq, Prod.mk.injEq] at h
              obtain ⟨rfl, rfl⟩ := h
              have h1 := ihV (c :: rest) v1 s1 hpv
              rw [List.cons_append] at h1
              rw [h1]
              simp only
              rw [ihLE s1 vs s2 hple]
    · -- parseDict
      intro s v r h
      cases s with
      | nil => rw [parseDict_succ_nil] at h; exact absurd h (by simp)
      | cons c s1 =>
        rw [parseDict_succ_eq] at h
        rw [List.cons_append, parseDict_succ_eq]
        by_cases hc : c = 100
        · rw [if_pos hc] at h ⊢
          exact ihDE s1 [] v r h
        · rw [if_neg hc] at h
          exact absurd h (by simp)
    · -- parseDictEntries
      intro s acc v r h
      cases s with
      | nil => rw [parseDictEntries_succ_nil] at h; exact absurd h (by simp)
      | cons c rest =>
        rw [parseDictEntries_succ_eq] at h
        rw [List.cons_append, parseDictEntries_succ_eq]
        by_cases hc : c = 101
        · rw [if_pos hc] at h ⊢
          simp only [Except.ok.injEq, Prod.mk.injEq] at h
          obtain ⟨rfl, rfl⟩ := h
          rfl
        · rw [if_neg hc] at h ⊢
          by_cases hd : isdigit c
          · rw [if_pos hd] at h ⊢
            cases hps : parseString (c :: rest) with
            | error e => rw [hps] at h; exact absurd h (by simp)
            | ok p =>
              obtain ⟨key, s1⟩ := p
              rw [hps] at h
              simp only at h
              have hpsg := parseString_append g hps
              rw [List.cons_append] at hpsg
              rw [hpsg]
              simp only
              cases hpv : parseValue fuel s1 with
              | error e => rw [hpv] at h; exact absurd h (by simp)
              | ok q =>
                obtain ⟨v1, s2⟩ := q
                rw [hpv] at h
                simp only at h
                rw [ihV s1 v1 s2 hpv]
                simp only
                cases hmi : mapInsert key v1 acc with
                | none => rw [hmi] at h; exact absurd h (by simp)
                | some acc2 =>
                  rw [hmi] at h
                  simp only at h ⊢
                  exact ihDE s2 acc2 v r h
          · rw [if_neg hd] at h
            exact absurd h (by simp)

/-- Fuel monotonicity: a success at some fuel stays the same success at
any larger fuel (the fuel is a modelling artifact, not part of the C++
code, which has no such bound). -/
theorem parsers_mono : ∀ fuel fuel' : Nat, fuel ≤ fuel' →
    (∀ s v r, parseValue fuel s = .ok (v, r) → parseValue fuel' s = .ok (v, r))
    ∧ (∀ s v r, parseList fuel s = .ok (v, r) → parseList fuel' s = .ok (v, r))
    ∧ (∀ s v r, parseListElems fuel s = .ok (v, r) → parseListElems fuel' s = .ok (v, r))
    ∧ (∀ s v r, parseDict fuel s = .ok (v, r) → parseDict fuel' s = .ok (v, r))
    ∧ (∀ s acc v r, parseDictEntries fuel s acc = .ok (v, r) →
        parseDictEntries fuel' s acc = .ok (v, r)) := by
  intro fuel
  induction fuel with
  | zero =>
    intro fuel' _
    refine ⟨?_, ?_, ?_, ?_, ?_⟩
    · intro s v r h; rw [parseValue_zero] at h; exact absurd h (by simp)
    · intro s v r h; rw [parseList_zero] at h; exact absurd h (by simp)
    · intro s v r h; rw [parseListElems_zero] at h; exact absurd h (by simp)
    · intro s v r h; rw [parseDict_zero] at h; exact absurd h (by simp)
    · intro s acc v r h; rw [parseDictEntries_zero] at h; exact absurd h (by simp)
  | succ fuel ih =>
    intro fuel' hle
    obtain ⟨f2, rfl⟩ : ∃ f2, fuel' = f2 + 1 := ⟨fuel' - 1, by omega⟩
    obtain ⟨ihV, ihL, ihLE, ihD, ihDE⟩ := ih f2 (by omega)
    refine ⟨?_, ?_, ?_, ?_, ?_⟩
    · -- parseValue
      intro s v r h
      cases s with
      | nil => rw [parseValue_succ_nil] at h; exact absurd h (by simp)
      | cons c rest =>
        rw [parseValue_succ_eq] at h
        rw [parseValue_succ_eq]
        by_cases hd : isdigit c
        · rw [if_pos hd] at h ⊢
          exact h
        · rw [if_neg hd] at h ⊢
          by_cases hc105 : c = 105
          · rw [if_pos hc105] at h ⊢
            exact h
          · rw [if_neg hc105] at h ⊢
            by_cases hc108 : c = 108
            · rw [if_pos hc108] at h ⊢
              cases hpl : parseList fuel (c :: rest) with
              | error e => rw [hpl] at h; exact absurd h (by simp [Except.map])
              | ok p =>
                rw [hpl] at h
                rw [ihL (c :: rest) p.1 p.2 (by rw [← hpl])]
                exact h
            · rw [if_neg hc108] at h ⊢
              by_cases hc100 : c = 100
              · rw [if_pos hc100] at h ⊢
                cases hpd : parseDict fuel (c :: rest) with
                | error e => rw [hpd] at h; exact absurd h (by simp [Except.map])
                | ok p =>
                  rw [hpd] at h
                  rw [ihD (c :: rest) p.1 p.2 (by rw [← hpd])]
                  exact h
              · rw [if_neg hc100] at h
                exact absurd h (by simp)
    · -- parseList
      intro s v r h
      cases s with
      | nil => rw [parseList_succ_nil] at h; exact absurd h (by simp)
      | cons c s1 =>
        rw [parseList_succ_eq] at h
        rw [parseList_succ_eq]
        by_cases hc : c = 108
        · rw [if_pos hc] at h ⊢
          exact ihLE s1 v r h
        · rw [if_neg hc] at h
          exact absurd h (by simp)
    · -- parseListElems
      intro s v r h
      cases s with
      | nil => rw [parseListElems_succ_nil] at h; exact absurd h (by simp)
      | cons c rest =>
        rw [parseListElems_succ_eq] at h
        rw [parseListElems_succ_eq]
        by_cases hc : c = 101
        · rw [if_pos hc] at h ⊢
          exact h
        · rw [if_neg hc] at h ⊢
          cases hpv : parseValue fuel (c :: rest) with
          | error e => rw [hpv] at h; exact absurd h (by simp)
          | ok p =>
            rw [hpv] at h
            simp only at h
            cases hple : parseListElems fuel p.2 with
            | error e => rw [hple] at h; exact absurd h (by simp)
            | ok q =>
              rw [hple] at h
              rw [ihV (c :: rest) p.1 p.2 (by rw [← hpv])]
              simp only
              rw [ihLE p.2 q.1 q.2 (by rw [← hple])]
              exact h
    · -- parseDict
      intro s v r h
      cases s with
      | nil => rw [parseDict_succ_nil] at h; exact absurd h (by simp)
      | cons c s1 =>
        rw [parseDict_succ_eq] at h
        rw [parseDict_succ_eq]
        by_cases hc : c = 100
        · rw [if_pos hc] at h ⊢
          exact ihDE s1 [] v r h
        · rw [if_neg hc] at h
          exact absurd h (by simp)
    · -- parseDictEntries
      intro s acc v r h
      cases s with
      | nil => rw [parseDictEntries_succ_nil] at h; exact absurd h (by simp)
      | cons c rest =>
        rw [parseDictEntries_succ_eq] at h
        rw [parseDictEntries_succ_eq]
        by_cases hc : c = 101
        · rw [if_pos hc] at h ⊢
          exact h
        · rw [if_neg hc] at h ⊢
          by_cases hd : isdigit c
          · rw [if_pos hd] at h ⊢
            cases hps : parseString (c :: rest) with
            | error e => rw [hps] at h; exact absurd h (by simp)
            | ok p =>
              rw [hps] at h
              simp only at h ⊢
              cases hpv : parseValue fuel p.2 with
              | error e => rw [hpv] at h; exact absurd h (by simp)
              | ok q =>
                rw [hpv] at h
                simp only at h
                rw [ihV p.2 q.1 q.2 (by rw [← hpv])]
                simp only
                cases hmi : mapInsert p.1 q.1 acc with
                | none => rw [hmi] at h; exact absurd h (by simp)
                | some acc2 =>
                  rw [hmi] at h
                  simp only at h ⊢
                  exact ihDE q.2 acc2 v r h
          · rw [if_neg hd] at h
            exact absurd h (by simp)

/-! ## parseInt on canonical digit strings -/

theorem parseIntCore_natDigits (negative : Bool) (m : Nat) (rest : List Nat) :
    parseIntCore negative (natDigits m ++ 101 :: rest)
      = .ok ((if negative then i64 (-(i64 (m : Int))) else i64 (m : Int)), rest) := by
  obtain ⟨h, t, heq, hdig, hne⟩ := natDigits_cons m
  have hloop := intDigitsLoop_natDigits m (101 :: rest)
    (by intro c t' hct; injection hct with h1 h2; rw [← h1]; rfl)
  rw [heq, List.cons_append] at hloop ⊢
  rw [parseIntCore.eq_def]
  simp only
  rw [if_pos hdig]
  have hlz : (h == 48 && leadZeroBad (t ++ 101 :: rest)) = false := by
    by_cases hm : m = 0
    · subst hm
      have h0 : natDigits 0 = [48] := rfl
      rw [h0] at heq
      obtain ⟨rfl, rfl⟩ : h = 48 ∧ t = ([] : List Nat) :=
        ⟨(List.cons.inj heq).1.symm, (List.cons.inj heq).2.symm⟩
      rfl
    · have hb : (h == 48) = false := beq_eq_false_iff_ne.mpr (hne hm)
      rw [hb, Bool.false_and]
  simp only [hlz, Bool.false_eq_true, if_false]
  rw [hloop]
  rfl

/-- `parseInt` on `i` + canonical digits of `m` + `e` + anything: the
value is `m` wrapped into `int64_t`. -/
theorem parseInt_natDigits_pos (m : Nat) (rest : List Nat) :
    parseInt (105 :: (natDigits m ++ 101 :: rest)) = .ok (i64 (m : Int), rest) := by
  obtain ⟨h, t, heq, hdig, hne⟩ := natDigits_cons m
  rw [heq, List.cons_append, parseInt.eq_def]
  simp only
  rw [if_true]
  have h45 : ¬ h = 45 := by
    simp only [isdigit, Bool.and_eq_true, decide_eq_true_eq] at hdig
    omega
  rw [if_neg h45, ← List.cons_append, ← heq]
  simpa using parseIntCore_natDigits false m rest

/-- `parseInt` on `i-` + canonical digits of `m` + `e` + anything: the
value is the negation, each store wrapped into `int64_t`. -/
theorem parseInt_natDigits_neg (m : Nat) (rest : List Nat) :
    parseInt (105 :: 45 :: (natDigits m ++ 101 :: rest))
      = .ok (i64 (-(i64 (m : Int))), rest) := by
  rw [parseInt.eq_def]
  simp only
  rw [if_true, if_true]
  simpa using parseIntCore_natDigits true m rest

/-! ## parseString on canonical encodings -/

theorem findColon_no_colon_append (ds : List Nat) (h : ∀ c ∈ ds, c ≠ 58) (tail : List Nat) :
    findColon (ds ++ 58 :: tail) = some ds.length := by
  induction ds with
  | nil => simp [findColon]
  | cons c rest ih =>
    rw [List.cons_append, findColon, if_neg (h c (List.mem_cons_self _ _)),
      ih (fun c' hc' => h c' (List.mem_cons_of_mem _ hc'))]
    rfl

theorem parseString_canonical (L : Nat) (B : List Nat) (hB : B.length = L) (hL : L < 2 ^ 64) :
    parseString (natDigits L ++ 58 :: B) = .ok (B, []) := by
  have hno : ∀ c ∈ natDigits L, c ≠ 58 := by
    intro c hc
    have := natDigits_all_digit L c hc
    simp only [isdigit, Bool.and_eq_true, decide_eq_true_eq] at this
    omega
  rw [parseString.eq_def, findColon_no_colon_append (natDigits L) hno B]
  simp only
  rw [List.take_left]
  have hlz : ¬ (1 < (natDigits L).length ∧ (natDigits L).headD 0 = 48) := by
    by_cases hL0 : L = 0
    · subst hL0
      rw [show natDigits 0 = [48] from rfl]
      simp
    · obtain ⟨h, t, heq, -, hne⟩ := natDigits_cons L
      rw [heq]
      rintro ⟨-, h48⟩
      exact hne hL0 h48
  rw [if_neg hlz]
  have hfold : List.foldl (fun (a : Nat) (c : Nat) => a * 10 + (c - 48)) 0 (natDigits L)
      = L := by
    rw [natDigits_foldl L 0]
    simp
  have hsll : strLenLoop (natDigits L) 0 = .ok L := by
    rw [strLenLoop_ok (natDigits L) 0 (natDigits_all_digit L) (by rw [hfold]; exact hL),
      hfold]
  rw [hsll]
  simp only
  have hdrop : (natDigits L ++ 58 :: B).drop ((natDigits L).length + 1) = B := by
    have hsplit : natDigits L ++ 58 :: B = (natDigits L ++ [58]) ++ B := by simp
    have hlen : (natDigits L ++ [58]).length = (natDigits L).length + 1 := by simp
    rw [hsplit, ← hlen, List.drop_left]
  rw [hdrop, if_neg (by omega), ← hB, List.take_length, List.drop_length]

/-! ## Claim C2 -/

/-- C2: for every signed 64-bit integer `n`, the canonical encoding
`i` + decimal digits of `n` (with `-` prefix if negative) + `e` decodes to
exactly `n`; and `i-0e` is accepted, decoding to `0`, rather than
rejected. (`i0e` is the instance `n = 0` of the first part.) -/
theorem decode_canonical_int :
    (∀ n : Int, -(2 ^ 63) ≤ n → n < 2 ^ 63 → parse (encInt n) = .ok (.int n))
    ∧ parse (bytes "i-0e") = .ok (.int 0) := by
  refine ⟨?_, rfl⟩
  intro n h1 h2
  rw [parse]
  obtain ⟨k, hk⟩ : ∃ k, 2 * (encInt n).length + 4 = k + 1 :=
    ⟨2 * (encInt n).length + 3, by omega⟩
  rw [hk, encInt, parseValue_succ_eq,
    if_neg (show ¬ (isdigit 105 = true) by decide), if_pos rfl]
  by_cases hn : n < 0
  · rw [if_pos hn, List.cons_append]
    have hm : ((n.natAbs : Nat) : Int) = -n := by omega
    have hval : i64 (-(i64 ((n.natAbs : Nat) : Int))) = n := by
      rw [hm]
      have e1 : i64 (-(i64 (-n))) = i64 (-(-n)) :=
        i64_congr (Int.ModEq.neg (i64_modEq (-n)))
      rw [e1, neg_neg]
      exact i64_eq_self h1 h2
    rw [parseInt_natDigits_neg n.natAbs [], hval]
    rfl
  · rw [if_neg hn]
    have hm : ((n.toNat : Nat) : Int) = n := Int.toNat_of_nonneg (by omega)
    have hval : i64 ((n.toNat : Nat) : Int) = n := by
      rw [hm]
      exact i64_eq_self (by omega) h2
    rw [parseInt_natDigits_pos n.toNat [], hval]
    rfl

/-- C2, witness: the canonical encoding of `-42` (the bytes `i-42e`)
decodes to `-42`. -/
theorem decode_canonical_int_witness :
    parse (encInt (-42)) = .ok (.int (-42)) :=
  decode_canonical_int.1 (-42) (by norm_num) (by norm_num)

/-! ## Claim C3 -/

/-- C3: for every length `L` (within `size_t` range) and every byte
sequence `B` of length `L` — arbitrary bytes, zero bytes included — the
encoding made of the decimal digits of `L`, a colon, and `B` decodes to
exactly the ByteString `B`; and `0:` decodes to the empty string. -/
theorem decode_canonical_string :
    (∀ (L : Nat) (B : List Nat), B.length = L → L < 2 ^ 64 →
      parse (natDigits L ++ 58 :: B) = .ok (.str B))
    ∧ parse (bytes "0:") = .ok (.str []) := by
  refine ⟨?_, rfl⟩
  intro L B hB hL
  rw [parse]
  obtain ⟨k, hk⟩ : ∃ k, 2 * (natDigits L ++ 58 :: B).length + 4 = k + 1 :=
    ⟨2 * (natDigits L ++ 58 :: B).length + 3, by omega⟩
  rw [hk]
  obtain ⟨h, t, heq, hdig, -⟩ := natDigits_cons L
  rw [heq, List.cons_append, parseValue.eq_def]
  simp only
  rw [if_pos hdig, ← List.cons_append, ← heq, parseString_canonical L B hB hL]
  rfl

/-- C3, witness: the encoding `3:` followed by the bytes of `abc` decodes
to the ByteString `abc`. -/
theorem decode_canonical_string_witness :
    parse (natDigits 3 ++ 58 :: bytes "abc") = .ok (.str (bytes "abc")) :=
  decode_canonical_string.1 3 (bytes "abc") (by rfl) (by norm_num)

/-! ## Claim C4 -/

/-- C4: a byte buffer consisting of one valid Bencode value encoding
(one that `parseValue` consumes in full) followed by arbitrary trailing
bytes decodes successfully to the same value as the valid encoding alone:
the bytes after the first top-level value are never inspected and never
cause failure. -/
theorem decode_ignores_trailing_bytes (v g : List Nat) (val : BValue)
    (h : parseValue (2 * v.length + 4) v = .ok (val, [])) :
    parse v = .ok val ∧ parse (v ++ g) = .ok val := by
  constructor
  · rw [parse, h]
    rfl
  · rw [parse]
    have hlen : 2 * v.length + 4 ≤ 2 * (v ++ g).length + 4 := by
      rw [List.length_append]
      omega
    have h2 := (parsers_mono (2 * v.length + 4) (2 * (v ++ g).length + 4) hlen).1 v val [] h
    have h3 := (parsers_append g (2 * (v ++ g).length + 4)).1 v val [] h2
    rw [List.nil_append] at h3
    rw [h3]
    rfl

/-- C4, witness: the valid encoding `i5e` followed by the garbage bytes
`XYZ` decodes to `5`, the same value as `i5e` alone. -/
theorem decode_ignores_trailing_bytes_witness :
    parse (bytes "i5e") = .ok (.int 5) ∧ parse (bytes "i5e" ++ bytes "XYZ") = .ok (.int 5) :=
  decode_ignores_trailing_bytes (bytes "i5e") (bytes "XYZ") (.int 5) (by rfl)

/-! ## Claim C1 -/

/-- C1, counterexample: decoding `d1:bi1e1:ai2ee` (keys appear in the
order `b`, `a`) succeeds, but the decoded Dictionary iterates its entries
as `a`, `b` — not in the order of appearance in the source bytes, contrary
to the claim. -/
theorem decode_does_resort_keys :
    parse (bytes "d1:bi1e1:ai2ee") = .ok (.dict [([97], .int 2), ([98], .int 1)])
    ∧ ([([97], BValue.int 2), ([98], BValue.int 1)].map Prod.fst ≠ [[98], [97]]) :=
  ⟨rfl, by decide⟩

/-- C1 (amended): the decoder accepts dictionary encodings whose keys
appear in non-sorted order (it enforces only uniqueness), but every
dictionary it returns is a key-sorted map (`std::map`): its
insertion/iteration order is the lexicographic order of the keys, not the
order of appearance in the source bytes. -/
theorem parseDict_iteration_order_sorted (fuel : Nat) (s : List Nat) (d : Dict)
    (r : List Nat) (h : parseDict fuel s = .ok (d, r)) : keysSorted d :=
  parseDict_sorted h

/-- C1, witness: the amended theorem applied to the dictionary encoding
`d1:bi1e1:ai2ee`, whose keys appear unsorted in the source bytes and which
the decoder nevertheless accepts, producing the key-sorted map. -/
theorem parseDict_iteration_order_sorted_witness :
    keysSorted [([97], BValue.int 2), ([98], BValue.int 1)] :=
  parseDict_iteration_order_sorted 20 (bytes "d1:bi1e1:ai2ee")
    [([97], BValue.int 2), ([98], BValue.int 1)] [] (by rfl)

/-! ## Claim C5 -/

theorem parseValue_int_error (fuel : Nat) (t : List Nat) (e : String)
    (h : parseInt (105 :: t) = .error e) :
    parseValue (fuel + 1) (105 :: t) = .error e := by
  rw [parseValue_succ_eq, if_neg (show ¬ (isdigit 105 = true) by decide), if_pos rfl, h]
  rfl

theorem parse_int_error (t : List Nat) (e : String) (h : parseInt (105 :: t) = .error e) :
    parse (105 :: t) = .error e := by
  have hfe : 2 * (105 :: t).length + 4 = (2 * t.length + 5) + 1 := by
    simp only [List.length_cons]; omega
  rw [parse, hfe, parseValue_int_error (2 * t.length + 5) t e h]
  rfl

/-- C5: every input beginning with a leading-zero integer literal (after
`i` and an optional `-`, a `0` followed by another digit — covering
`i01e`, `i00e`, and any continuation) fails with the leading-zeros error,
and every input beginning with an incomplete integer literal (after `i`
and an optional `-`, a non-digit byte or the end of the input — covering
`i`, `ie`, `i-e`, `i-`, and any continuation) fails with the no-digits
error; both are thrown `MalformedInput` errors. -/
theorem malformed_int_literals_fail :
    (∀ (c2 : Nat) (rest : List Nat), isdigit c2 = true →
        parse (105 :: 48 :: c2 :: rest) = .error "Invalid integer format: leading zeros")
    ∧ (∀ (c2 : Nat) (rest : List Nat), isdigit c2 = true →
        parse (105 :: 45 :: 48 :: c2 :: rest) = .error "Invalid integer format: leading zeros")
    ∧ (∀ (c : Nat) (rest : List Nat), isdigit c = false → c ≠ 45 →
        parse (105 :: c :: rest) = .error "Invalid integer format: no digits")
    ∧ (∀ (c : Nat) (rest : List Nat), isdigit c = false →
        parse (105 :: 45 :: c :: rest) = .error "Invalid integer format: no digits")
    ∧ parse [105] = .error "Invalid integer format: no digits"
    ∧ parse [105, 45] = .error "Invalid integer format: no digits" := by
  have hcore0 : ∀ (neg : Bool) (c2 : Nat) (rest : List Nat), isdigit c2 = true →
      parseIntCore neg (48 :: c2 :: rest) = .error "Invalid integer format: leading zeros" := by
    intro neg c2 rest h
    have hlz : (48 == 48 && leadZeroBad (c2 :: rest)) = true := by
      simp only [isdigit, Bool.and_eq_true, decide_eq_true_eq] at h
      simp only [leadZeroBad, Bool.and_eq_true, beq_self_eq_true, bne_iff_ne, true_and]
      omega
    rw [parseIntCore_cons, if_pos (show isdigit 48 = true from rfl), if_pos hlz]
  have hcoreN : ∀ (neg : Bool) (c : Nat) (rest : List Nat), isdigit c = false →
      parseIntCore neg (c :: rest) = .error "Invalid integer format: no digits" := by
    intro neg c rest h
    rw [parseIntCore_cons, if_neg (by simp [h])]
  refine ⟨?_, ?_, ?_, ?_, rfl, rfl⟩
  · intro c2 rest h
    refine parse_int_error _ _ ?_
    rw [show parseInt (105 :: 48 :: c2 :: rest) = parseIntCore false (48 :: c2 :: rest) from rfl]
    exact hcore0 false c2 rest h
  · intro c2 rest h
    refine parse_int_error _ _ ?_
    rw [show parseInt (105 :: 45 :: 48 :: c2 :: rest)
        = parseIntCore true (48 :: c2 :: rest) from rfl]
    exact hcore0 true c2 rest h
  · intro c rest hdig h45
    refine parse_int_error _ _ ?_
    rw [show parseInt (105 :: c :: rest)
        = if c = 45 then parseIntCore true rest else parseIntCore false (c :: rest) from rfl,
      if_neg h45]
    exact hcoreN false c rest hdig
  · intro c rest hdig
    refine parse_int_error _ _ ?_
    rw [show parseInt (105 :: 45 :: c :: rest) = parseIntCore true (c :: rest) from rfl]
    exact hcoreN true c rest hdig

/-- C5, witness: the universal theorem applied to the concrete inputs
`i01e`, `i-00e`, `ie` and `i-e`. -/
theorem malformed_int_literals_fail_witness :
    parse (bytes "i01e") = .error "Invalid integer format: leading zeros"
    ∧ parse (bytes "i-00e") = .error "Invalid integer format: leading zeros"
    ∧ parse (bytes "ie") = .error "Invalid integer format: no digits"
    ∧ parse (bytes "i-e") = .error "Invalid integer format: no digits" :=
  ⟨malformed_int_literals_fail.1 49 [101] (by decide),
   malformed_int_literals_fail.2.1 48 [101] (by decide),
   malformed_int_literals_fail.2.2.1 101 [] (by decide) (by decide),
   malformed_int_literals_fail.2.2.2.1 101 [] (by decide)⟩

/-! ## Claim C6

The claim quantifies over dictionary encodings, so we build them: `'d'`,
then `encDictEntries pairs` (each entry a string-key encoding followed by
a decodable value encoding), then either the closing `'e'` or a byte that
is not the start of a string key.  The lemmas below run `parseDictEntries`
over such bytes. -/

theorem lexLt_eq_of_not_lt : ∀ {a b : List Nat},
    lexLt a b = false → lexLt b a = false → a = b := by
  intro a
  induction a with
  | nil =>
    intro b h1 _
    cases b with
    | nil => rfl
    | cons y ys => rw [lexLt_nil_cons] at h1; exact absurd h1 (by simp)
  | cons x xs ih =>
    intro b h1 h2
    cases b with
    | nil => rw [lexLt_nil_cons] at h2; exact absurd h2 (by simp)
    | cons y ys =>
      rw [lexLt] at h1 h2
      by_cases hxy : x < y
      · rw [if_pos hxy] at h1; exact absurd h1 (by simp)
      · by_cases hyx : y < x
        · rw [if_pos hyx] at h2; exact absurd h2 (by simp)
        · rw [if_neg hxy, if_neg hyx] at h1
          rw [if_neg hyx, if_neg hxy] at h2
          have hx : x = y := by omega
          subst hx
          rw [ih h1 h2]

theorem mapInsert_none_of_mem {k : List Nat} {v : BValue} :
    ∀ {d : Dict}, keysSorted d → k ∈ d.map Prod.fst → mapInsert k v d = none := by
  intro d
  induction d with
  | nil => intro _ h; exact absurd h (by simp)
  | cons p rest ih =>
    intro hs hk
    obtain ⟨k', v'⟩ := p
    rcases hs with _ | ⟨hhead, hrest⟩
    simp only [List.map_cons, List.mem_cons] at hk
    rw [mapInsert]
    rcases hk with rfl | hk
    · rw [if_neg (by simp [lexLt_irrefl]), if_neg (by simp [lexLt_irrefl])]
    · have hk'k : lexLt k' k = true := by
        rcases List.mem_map.mp hk with ⟨b, hb, rfl⟩
        exact hhead b hb
      have hkk' : ¬ lexLt k k' = true := by
        intro hcase
        have hkk := lexLt_trans hcase hk'k
        rw [lexLt_irrefl] at hkk
        exact absurd hkk (by simp)
      rw [if_neg hkk', if_pos hk'k, ih hrest hk]
      rfl

theorem mapInsert_some_of_not_mem {k : List Nat} {v : BValue} :
    ∀ {d : Dict}, k ∉ d.map Prod.fst → ∃ d', mapInsert k v d = some d' := by
  intro d
  induction d with
  | nil => intro _; exact ⟨[(k, v)], rfl⟩
  | cons p rest ih =>
    intro hk
    obtain ⟨k', v'⟩ := p
    simp only [List.map_cons, List.mem_cons, not_or] at hk
    obtain ⟨hne, hk⟩ := hk
    by_cases h1 : lexLt k k' = true
    · refine ⟨(k, v) :: (k', v') :: rest, ?_⟩
      rw [mapInsert, if_pos h1]
    · have h2 : lexLt k' k = true := by
        cases hcase : lexLt k' k
        · exact absurd (lexLt_eq_of_not_lt (by simpa using h1) hcase) hne
        · rfl
      obtain ⟨d', hd'⟩ := ih hk
      refine ⟨(k', v') :: d', ?_⟩
      rw [mapInsert, if_neg h1, if_pos h2, hd']
      rfl

theorem mapInsert_mem_of_mem {k : List Nat} {v : BValue} :
    ∀ {l l' : Dict}, mapInsert k v l = some l' → ∀ b, b ∈ l ∨ b = (k, v) → b ∈ l' := by
  intro l
  induction l with
  | nil =>
    intro l' h b hb
    rw [mapInsert] at h
    injection h with h
    subst h
    rcases hb with hb | rfl
    · exact absurd hb (by simp)
    · simp
  | cons p rest ih =>
    intro l' h b hb
    obtain ⟨k', v'⟩ := p
    rw [mapInsert] at h
    split_ifs at h with h1 h2
    · injection h with h
      subst h
      rcases hb with hb | rfl
      · exact List.mem_cons_of_mem _ hb
      · exact List.mem_cons_self _ _
    · cases hmi : mapInsert k v rest with
      | none => rw [hmi] at h; exact absurd h (by simp)
      | some rest' =>
        rw [hmi] at h
        obtain rfl : (k', v') :: rest' = l' := by simpa using h
        rcases hb with hb | rfl
        · rcases List.mem_cons.mp hb with rfl | hb
          · exact List.mem_cons_self _ _
          · exact List.mem_cons_of_mem _ (ih hmi b (Or.inl hb))
        · exact List.mem_cons_of_mem _ (ih hmi (k, v) (Or.inr rfl))

theorem mapInsert_keys {k : List Nat} {v : BValue} {l l' : Dict}
    (h : mapInsert k v l = some l') (x : List Nat) :
    x ∈ l'.map Prod.fst ↔ x ∈ l.map Prod.fst ∨ x = k := by
  constructor
  · intro hx
    rcases List.mem_map.mp hx with ⟨b, hb, rfl⟩
    rcases mapInsert_mem h b hb with hmem | rfl
    · exact Or.inl (List.mem_map_of_mem _ hmem)
    · exact Or.inr rfl
  · intro hx
    rcases hx with hx | rfl
    · rcases List.mem_map.mp hx with ⟨b, hb, rfl⟩
      exact List.mem_map_of_mem _ (mapInsert_mem_of_mem h b (Or.inl hb))
    · exact List.mem_map.mpr ⟨(x, v), mapInsert_mem_of_mem h (x, v) (Or.inr rfl), rfl⟩

theorem natDigits_ne_nil (n : Nat) : natDigits n ≠ [] := by
  obtain ⟨h, t, heq, -, -⟩ := natDigits_cons n
  rw [heq]
  simp

theorem parseValue_ok_ne_nil {fuel : Nat} {s : List Nat} {v : BValue} {r : List Nat}
    (h : parseValue fuel s = .ok (v, r)) : s ≠ [] := by
  rintro rfl
  cases fuel with
  | zero => rw [parseValue_zero] at h; exact absurd h (by simp)
  | succ fuel => rw [parseValue_succ_nil] at h; exact absurd h (by simp)

theorem encStr_length_ge (k : List Nat) : 2 ≤ (encStr k).length := by
  rw [encStr]
  cases hnd : natDigits k.length with
  | nil => exact absurd hnd (natDigits_ne_nil k.length)
  | cons a t =>
    simp only [List.cons_append, List.length_cons, List.length_append]
    omega

theorem encDictEntries_length_ge (pairs : List (List Nat × List Nat))
    (hv : ∀ p ∈ pairs, 1 ≤ p.2.length) :
    3 * pairs.length ≤ (encDictEntries pairs).length := by
  induction pairs with
  | nil => simp [encDictEntries]
  | cons q rest ih =>
    obtain ⟨k, ve⟩ := q
    have h1 : 1 ≤ ve.length := by simpa using hv (k, ve) (List.mem_cons_self _ _)
    have h2 := encStr_length_ge k
    have h3 := ih (fun p hp => hv p (List.mem_cons_of_mem _ hp))
    rw [encDictEntries]
    simp only [List.length_append, List.length_cons]
    omega

theorem encDictEntries_mem_length (pairs : List (List Nat × List Nat))
    (hv : ∀ p ∈ pairs, 1 ≤ p.2.length) :
    ∀ p ∈ pairs, p.2.length + 3 * pairs.length ≤ (encDictEntries pairs).length + 1 := by
  induction pairs with
  | nil => intro p hp; exact absurd hp (by simp)
  | cons q rest ih =>
    intro p hp
    obtain ⟨k, ve⟩ := q
    have h1 : 1 ≤ ve.length := by simpa using hv (k, ve) (List.mem_cons_self _ _)
    have h2 := encStr_length_ge k
    have h3 := encDictEntries_length_ge rest (fun p hp => hv p (List.mem_cons_of_mem _ hp))
    rcases List.mem_cons.mp hp with rfl | hp
    · rw [encDictEntries]
      simp only [List.length_append, List.length_cons]
      omega
    · have h4 := ih (fun p hp => hv p (List.mem_cons_of_mem _ hp)) p hp
      rw [encDictEntries]
      simp only [List.length_append, List.length_cons]
      omega

theorem parseString_encStr (k g : List Nat) (hk : k.length < 2 ^ 64) :
    parseString (encStr k ++ g) = .ok (k, g) := by
  have h := parseString_append g (parseString_canonical k.length k rfl hk)
  rw [encStr]
  simpa using h

/-- One entry of an encoded dictionary: `parseDictEntries` parses the key
and the value off the front and either stops on a duplicate key or
recurses (at one less fuel) on the remaining bytes. -/
theorem parseDictEntries_encStep (fuel : Nat) (k ve tail2 : List Nat) (acc : Dict)
    (val : BValue) (hk : k.length < 2 ^ 64) (hv : parseValue fuel ve = .ok (val, [])) :
    parseDictEntries (fuel + 1) (encStr k ++ (ve ++ tail2)) acc =
      match mapInsert k val acc with
      | none => .error "Duplicate dictionary key"
      | some acc2 => parseDictEntries fuel tail2 acc2 := by
  obtain ⟨c0, t0, henc, hdig⟩ : ∃ c0 t0, encStr k = c0 :: t0 ∧ isdigit c0 = true := by
    cases hnd : natDigits k.length with
    | nil => exact absurd hnd (natDigits_ne_nil k.length)
    | cons a t =>
      refine ⟨a, t ++ 58 :: k, ?_, ?_⟩
      · rw [encStr, hnd]
        rfl
      · exact natDigits_all_digit k.length a (by rw [hnd]; exact List.mem_cons_self _ _)
  have hne : ¬ c0 = 101 := by
    simp only [isdigit, Bool.and_eq_true, decide_eq_true_eq] at hdig
    omega
  have hps : parseString (c0 :: (t0 ++ (ve ++ tail2))) = .ok (k, ve ++ tail2) := by
    have h := parseString_encStr k (ve ++ tail2) hk
    rw [henc] at h
    simpa using h
  have hpv : parseValue fuel (ve ++ tail2) = .ok (val, tail2) := by
    have h := (parsers_append tail2 fuel).1 ve val [] hv
    simpa using h
  rw [henc, List.cons_append, parseDictEntries_succ_eq, if_neg hne, if_pos hdig, hps]
  simp only
  rw [hpv]

theorem parseDictEntries_encStep_none (fuel : Nat) (k ve tail2 : List Nat) (acc : Dict)
    (val : BValue) (hk : k.length < 2 ^ 64) (hv : parseValue fuel ve = .ok (val, []))
    (hmi : mapInsert k val acc = none) :
    parseDictEntries (fuel + 1) (encStr k ++ (ve ++ tail2)) acc
      = .error "Duplicate dictionary key" := by
  rw [parseDictEntries_encStep fuel k ve tail2 acc val hk hv, hmi]

theorem parseDictEntries_encStep_some (fuel : Nat) (k ve tail2 : List Nat) (acc : Dict)
    (val : BValue) (acc2 : Dict) (hk : k.length < 2 ^ 64)
    (hv : parseValue fuel ve = .ok (val, [])) (hmi : mapInsert k val acc = some acc2) :
    parseDictEntries (fuel + 1) (encStr k ++ (ve ++ tail2)) acc
      = parseDictEntries fuel tail2 acc2 := by
  rw [parseDictEntries_encStep fuel k ve tail2 acc val hk hv, hmi]

/-- Running `parseDictEntries` over encoded entries whose keys repeat a
key (their own or one already inserted) yields exactly the
duplicate-dictionary-key error. -/
theorem parseDictEntries_encDup :
    ∀ (pairs : List (List Nat × List Nat)) (fuel : Nat) (suffix : List Nat) (acc : Dict),
      (∀ p ∈ pairs, p.1.length < 2 ^ 64) →
      (∀ p ∈ pairs, ∃ val, parseValue fuel p.2 = .ok (val, [])) →
      keysSorted acc →
      ¬ (acc.map Prod.fst ++ pairs.map Prod.fst).Nodup →
      parseDictEntries (fuel + pairs.length) (encDictEntries pairs ++ suffix) acc
        = .error "Duplicate dictionary key" := by
  intro pairs
  induction pairs with
  | nil =>
    intro fuel suffix acc _ _ hacc hdup
    exact absurd (by simpa using keys_nodup hacc) hdup
  | cons q rest ih =>
    intro fuel suffix acc hk hv hacc hdup
    obtain ⟨k, ve⟩ := q
    have hk1 : k.length < 2 ^ 64 := hk (k, ve) (List.mem_cons_self _ _)
    obtain ⟨val, hval⟩ := hv (k, ve) (List.mem_cons_self _ _)
    have hval2 : parseValue (fuel + rest.length) ve = .ok (val, []) :=
      (parsers_mono fuel (fuel + rest.length) (by omega)).1 ve val [] hval
    have hfe : fuel + ((k, ve) :: rest).length = (fuel + rest.length) + 1 := by
      simp only [List.length_cons]
      omega
    have henc : encDictEntries ((k, ve) :: rest) ++ suffix
        = encStr k ++ (ve ++ (encDictEntries rest ++ suffix)) := by
      rw [encDictEntries]
      simp
    rw [hfe, henc]
    by_cases hmem : k ∈ acc.map Prod.fst
    · rw [parseDictEntries_encStep_none (fuel + rest.length) k ve _ acc val hk1 hval2
        (mapInsert_none_of_mem hacc hmem)]
    · obtain ⟨acc2, hacc2⟩ := mapInsert_some_of_not_mem hmem
      rw [parseDictEntries_encStep_some (fuel + rest.length) k ve _ acc val acc2 hk1 hval2
        hacc2]
      refine ih fuel suffix acc2 (fun p hp => hk p (List.mem_cons_of_mem _ hp))
        (fun p hp => hv p (List.mem_cons_of_mem _ hp)) (mapInsert_sorted hacc hacc2) ?_
      intro hnd
      apply hdup
      rw [List.nodup_append] at hnd ⊢
      obtain ⟨hnd2, hndr, hdisj⟩ := hnd
      have hkacc2 : k ∈ acc2.map Prod.fst := (mapInsert_keys hacc2 k).mpr (Or.inr rfl)
      have hsub : ∀ x ∈ acc.map Prod.fst, x ∈ acc2.map Prod.fst :=
        fun x hx => (mapInsert_keys hacc2 x).mpr (Or.inl hx)
      refine ⟨keys_nodup hacc, ?_, ?_⟩
      · simp only [List.map_cons]
        exact List.nodup_cons.mpr ⟨fun hkr => hdisj hkacc2 hkr, hndr⟩
      · intro x hx hxmem
        simp only [List.map_cons, List.mem_cons] at hxmem
        rcases hxmem with rfl | hxr
        · exact hmem hx
        · exact hdisj (hsub x hx) hxr

/-- Running `parseDictEntries` over encoded entries with pairwise-distinct
fresh keys consumes them all, arriving at the suffix with one fuel unit
spent per entry. -/
theorem parseDictEntries_encRun :
    ∀ (pairs : List (List Nat × List Nat)) (fuel : Nat) (suffix : List Nat) (acc : Dict),
      (∀ p ∈ pairs, p.1.length < 2 ^ 64) →
      (∀ p ∈ pairs, ∃ val, parseValue fuel p.2 = .ok (val, [])) →
      keysSorted acc →
      (acc.map Prod.fst ++ pairs.map Prod.fst).Nodup →
      ∃ acc2, keysSorted acc2 ∧
        parseDictEntries (fuel + pairs.length) (encDictEntries pairs ++ suffix) acc
          = parseDictEntries fuel suffix acc2 := by
  intro pairs
  induction pairs with
  | nil =>
    intro fuel suffix acc _ _ hacc _
    exact ⟨acc, hacc, by simp [encDictEntries]⟩
  | cons q rest ih =>
    intro fuel suffix acc hk hv hacc hnd
    obtain ⟨k, ve⟩ := q
    have hk1 : k.length < 2 ^ 64 := hk (k, ve) (List.mem_cons_self _ _)
    obtain ⟨val, hval⟩ := hv (k, ve) (List.mem_cons_self _ _)
    have hval2 : parseValue (fuel + rest.length) ve = .ok (val, []) :=
      (parsers_mono fuel (fuel + rest.length) (by omega)).1 ve val [] hval
    have hmem : k ∉ acc.map Prod.fst := by
      rw [List.nodup_append] at hnd
      intro hx
      exact hnd.2.2 hx (by simp)
    obtain ⟨acc2, hacc2⟩ := mapInsert_some_of_not_mem hmem
    have hfe : fuel + ((k, ve) :: rest).length = (fuel + rest.length) + 1 := by
      simp only [List.length_cons]
      omega
    have henc : encDictEntries ((k, ve) :: rest) ++ suffix
        = encStr k ++ (ve ++ (encDictEntries rest ++ suffix)) := by
      rw [encDictEntries]
      simp
    rw [hfe, henc, parseDictEntries_encStep_some (fuel + rest.length) k ve _ acc val acc2
      hk1 hval2 hacc2]
    refine ih fuel suffix acc2 (fun p hp => hk p (List.mem_cons_of_mem _ hp))
      (fun p hp => hv p (List.mem_cons_of_mem _ hp)) (mapInsert_sorted hacc hacc2) ?_
    rw [List.nodup_append] at hnd ⊢
    obtain ⟨hndacc, hndkr, hdisj⟩ := hnd
    simp only [List.map_cons] at hndkr hdisj
    obtain ⟨hknr, hndr⟩ := List.nodup_cons.mp hndkr
    refine ⟨keys_nodup (mapInsert_sorted hacc hacc2), hndr, ?_⟩
    intro x hx hxr
    rcases (mapInsert_keys hacc2 x).mp hx with hxacc | rfl
    · exact hdisj hxacc (List.mem_cons_of_mem _ hxr)
    · exact hknr hxr

/-- C6: for every dictionary encoding in which the same key appears twice
— `'d'`, a sequence of entries (a string-key encoding followed by a
decodable value encoding each) whose keys are not pairwise distinct, and
the closing `'e'` — decoding fails with exactly the duplicate-dictionary-
key error; and for every dictionary encoding in which an entry's key
position holds a non-string value — after any well-formed entries with
distinct keys, a byte that is neither a digit (the start of a string key)
nor the closing `'e'` — decoding fails with exactly the
key-must-be-string error. -/
theorem dict_duplicate_and_nonstring_keys_fail :
    (∀ (pairs : List (List Nat × List Nat)),
        (∀ p ∈ pairs, p.1.length < 2 ^ 64) →
        (∀ p ∈ pairs, ∃ val, parseValue (2 * p.2.length + 4) p.2 = .ok (val, [])) →
        ¬ (pairs.map Prod.fst).Nodup →
        parse (100 :: (encDictEntries pairs ++ [101])) = .error "Duplicate dictionary key")
    ∧ (∀ (pairs : List (List Nat × List Nat)) (c : Nat) (tail : List Nat),
        (∀ p ∈ pairs, p.1.length < 2 ^ 64) →
        (∀ p ∈ pairs, ∃ val, parseValue (2 * p.2.length + 4) p.2 = .ok (val, [])) →
        (pairs.map Prod.fst).Nodup →
        isdigit c = false → ¬ c = 101 →
        parse (100 :: (encDictEntries pairs ++ c :: tail))
          = .error "Invalid dictionary key: must be string") := by
  constructor
  · intro pairs hk hv hdup
    have hv1 : ∀ p ∈ pairs, 1 ≤ p.2.length := by
      intro p hp
      obtain ⟨val, hval⟩ := hv p hp
      exact List.length_pos.mpr (parseValue_ok_ne_nil hval)
    have hge := encDictEntries_length_ge pairs hv1
    have hv2 : ∀ p ∈ pairs, ∃ val,
        parseValue (2 * (encDictEntries pairs).length + 6 - pairs.length) p.2
          = .ok (val, []) := by
      intro p hp
      obtain ⟨val, hval⟩ := hv p hp
      have hb := encDictEntries_mem_length pairs hv1 p hp
      exact ⟨val, (parsers_mono (2 * p.2.length + 4) _ (by omega)).1 p.2 val [] hval⟩
    have hfe : 2 * (100 :: (encDictEntries pairs ++ [101])).length + 4
        = (((2 * (encDictEntries pairs).length + 6 - pairs.length) + pairs.length) + 1) + 1 := by
      simp only [List.length_cons, List.length_append, List.length_nil]
      omega
    rw [parse, hfe, parseValue_succ_eq, if_neg (show ¬ (isdigit 100 = true) by decide),
      if_neg (show ¬ (100 : Nat) = 105 by decide), if_neg (show ¬ (100 : Nat) = 108 by decide),
      if_pos rfl, parseDict_succ_eq, if_pos rfl,
      parseDictEntries_encDup pairs (2 * (encDictEntries pairs).length + 6 - pairs.length)
        [101] [] hk hv2 List.Pairwise.nil (by simpa using hdup)]
    rfl
  · intro pairs c tail hk hv hnd hcdig hc101
    have hv1 : ∀ p ∈ pairs, 1 ≤ p.2.length := by
      intro p hp
      obtain ⟨val, hval⟩ := hv p hp
      exact List.length_pos.mpr (parseValue_ok_ne_nil hval)
    have hge := encDictEntries_length_ge pairs hv1
    have hv2 : ∀ p ∈ pairs, ∃ val,
        parseValue (2 * (encDictEntries pairs).length + 2 * tail.length + 6 - pairs.length) p.2
          = .ok (val, []) := by
      intro p hp
      obtain ⟨val, hval⟩ := hv p hp
      have hb := encDictEntries_mem_length pairs hv1 p hp
      exact ⟨val, (parsers_mono (2 * p.2.length + 4) _ (by omega)).1 p.2 val [] hval⟩
    obtain ⟨acc2, -, hrun⟩ := parseDictEntries_encRun pairs
      (2 * (encDictEntries pairs).length + 2 * tail.length + 6 - pairs.length)
      (c :: tail) [] hk hv2 List.Pairwise.nil (by simpa using hnd)
    have hfe : 2 * (100 :: (encDictEntries pairs ++ c :: tail)).length + 4
        = (((2 * (encDictEntries pairs).length + 2 * tail.length + 6 - pairs.length)
            + pairs.length) + 1) + 1 := by
      simp only [List.length_cons, List.length_append]
      omega
    rw [parse, hfe, parseValue_succ_eq, if_neg (show ¬ (isdigit 100 = true) by decide),
      if_neg (show ¬ (100 : Nat) = 105 by decide), if_neg (show ¬ (100 : Nat) = 108 by decide),
      if_pos rfl, parseDict_succ_eq, if_pos rfl, hrun]
    obtain ⟨f0, hf0⟩ : ∃ f0,
        2 * (encDictEntries pairs).length + 2 * tail.length + 6 - pairs.length = f0 + 1 :=
      ⟨2 * (encDictEntries pairs).length + 2 * tail.length + 5 - pairs.length, by omega⟩
    rw [hf0, parseDictEntries_succ_eq, if_neg hc101, if_neg (by simp [hcdig])]
    rfl

/-- C6, witness: the duplicate-key part applied to the entry sequence
encoding `d1:ai1e1:ai2ee` (the key `a` twice), and the non-string-key part
applied to `di1ei1ee` (an integer in key position). -/
theorem dict_duplicate_and_nonstring_keys_fail_witness :
    parse (bytes "d1:ai1e1:ai2ee") = .error "Duplicate dictionary key"
    ∧ parse (bytes "di1ei1ee") = .error "Invalid dictionary key: must be string" := by
  constructor
  · have h := dict_duplicate_and_nonstring_keys_fail.1
      [(bytes "a", bytes "i1e"), (bytes "a", bytes "i2e")]
      (by decide)
      (by
        intro p hp
        rcases List.mem_cons.mp hp with rfl | hp
        · exact ⟨.int 1, rfl⟩
        rcases List.mem_cons.mp hp with rfl | hp
        · exact ⟨.int 2, rfl⟩
        exact absurd hp (by simp))
      (by decide)
    exact h
  · have h := dict_duplicate_and_nonstring_keys_fail.2 [] 105 (bytes "1ei1ee")
      (fun p hp => absurd hp (by simp))
      (fun p hp => absurd hp (by simp))
      (by decide) (by decide) (by decide)
    exact h

/-! ## Claim C9 -/

/-- C9: the digit-accumulation of `parseInt` has no overflow check, so the
literal `i9223372036854775808e` (2 ^ 63, one past `INT64_MAX`) decodes
successfully to the wrapped value `-2 ^ 63` instead of failing — a value
different from the number written. -/
theorem int_literal_overflow_wraps :
    parse (bytes "i9223372036854775808e") = .ok (.int (-(2 ^ 63)))
    ∧ ((-(2 ^ 63) : Int) ≠ 9223372036854775808) :=
  ⟨rfl, by decide⟩

/-! ## Splitting the pieces string into 20-byte chunks -/

theorem splitPiecesAux_nil : ∀ f : Nat, splitPiecesAux f [] = [] := by
  intro f
  cases f <;> rfl

theorem splitPiecesAux_congr : ∀ (f g : Nat) (s : List Nat), s.length ≤ f → s.length ≤ g →
    splitPiecesAux f s = splitPiecesAux g s := by
  intro f
  induction f with
  | zero =>
    intro g s hf _
    have hs : s = [] := List.eq_nil_of_length_eq_zero (by omega)
    subst hs
    rw [splitPiecesAux_nil, splitPiecesAux_nil]
  | succ f ih =>
    intro g s hf hg
    cases s with
    | nil => rw [splitPiecesAux_nil, splitPiecesAux_nil]
    | cons c rest =>
      cases g with
      | zero => exact absurd hg (by simp)
      | succ g =>
        rw [splitPiecesAux, splitPiecesAux]
        congr 1
        apply ih
        · rw [List.length_drop]
          simp only [List.length_cons] at hf ⊢
          omega
        · rw [List.length_drop]
          simp only [List.length_cons] at hg ⊢
          omega

theorem splitPieces_cons (c : Nat) (rest : List Nat) :
    splitPieces (c :: rest) = (c :: rest).take 20 :: splitPieces ((c :: rest).drop 20) := by
  rw [splitPieces, splitPieces, List.length_cons, splitPiecesAux]
  congr 1
  apply splitPiecesAux_congr
  · rw [List.length_drop]
    simp only [List.length_cons]
    omega
  · exact Nat.le_refl _

theorem splitPieces_join_aux : ∀ (n : Nat) (s : List Nat), s.length ≤ n →
    (splitPieces s).flatten = s := by
  intro n
  induction n with
  | zero =>
    intro s h
    have hs : s = [] := List.eq_nil_of_length_eq_zero (by omega)
    subst hs
    rfl
  | succ n ih =>
    intro s h
    cases s with
    | nil => rfl
    | cons c rest =>
      rw [splitPieces_cons, List.flatten_cons,
        ih ((c :: rest).drop 20) (by rw [List.length_drop]; simp only [List.length_cons] at h ⊢; omega)]
      exact List.take_append_drop 20 (c :: rest)

theorem splitPieces_join (s : List Nat) : (splitPieces s).flatten = s :=
  splitPieces_join_aux s.length s (Nat.le_refl _)

theorem splitPieces_bounds_aux : ∀ (n : Nat) (s : List Nat), s.length ≤ n →
    ∀ c ∈ splitPieces s, 0 < c.length ∧ c.length ≤ 20 := by
  intro n
  induction n with
  | zero =>
    intro s h c hc
    have hs : s = [] := List.eq_nil_of_length_eq_zero (by omega)
    subst hs
    exact absurd hc (by simp [splitPieces, splitPiecesAux])
  | succ n ih =>
    intro s h c hc
    cases s with
    | nil => exact absurd hc (by simp [splitPieces, splitPiecesAux])
    | cons c0 rest =>
      rw [splitPieces_cons] at hc
      rcases List.mem_cons.mp hc with rfl | hc
      · rw [List.length_take]
        simp only [List.length_cons]
        omega
      · exact ih ((c0 :: rest).drop 20)
          (by rw [List.length_drop]; simp only [List.length_cons] at h ⊢; omega) c hc

theorem splitPieces_bounds (s : List Nat) :
    ∀ c ∈ splitPieces s, 0 < c.length ∧ c.length ≤ 20 :=
  splitPieces_bounds_aux s.length s (Nat.le_refl _)

theorem splitPieces_all20_aux : ∀ (n : Nat) (s : List Nat), s.length ≤ n → 20 ∣ s.length →
    ∀ c ∈ splitPieces s, c.length = 20 := by
  intro n
  induction n with
  | zero =>
    intro s h _ c hc
    have hs : s = [] := List.eq_nil_of_length_eq_zero (by omega)
    subst hs
    exact absurd hc (by simp [splitPieces, splitPiecesAux])
  | succ n ih =>
    intro s h hdvd c hc
    cases s with
    | nil => exact absurd hc (by simp [splitPieces, splitPiecesAux])
    | cons c0 rest =>
      have hlen : 20 ≤ (c0 :: rest).length :=
        Nat.le_of_dvd (by simp) hdvd
      rw [splitPieces_cons] at hc
      rcases List.mem_cons.mp hc with rfl | hc
      · rw [List.length_take]
        omega
      · refine ih ((c0 :: rest).drop 20) ?_ ?_ c hc
        · rw [List.length_drop]
          simp only [List.length_cons] at h ⊢
          omega
        · rw [List.length_drop]
          exact Nat.dvd_sub' hdvd dvd_rfl

theorem splitPieces_all20 (s : List Nat) (h : 20 ∣ s.length) :
    ∀ c ∈ splitPieces s, c.length = 20 :=
  splitPieces_all20_aux s.length s (Nat.le_refl _) h

/-! ## The shape of a successful parseInfoDict -/

theorem infoFilesTail_ok {d : Dict} {pl : Int} {ps : List Nat} {t : TorrentInfo}
    (h : infoFilesTail d pl ps = .ok t) :
    ∃ fl, mapFind keyFiles d = some (.list fl)
      ∧ t = ⟨pl, splitPieces ps, infoName d, false,
             (parseFilesList fl).2, (parseFilesList fl).1⟩ := by
  rw [infoFilesTail.eq_def] at h
  cases hfl : mapFind keyFiles d with
  | none => rw [hfl] at h; exact absurd h (by simp)
  | some flv =>
    rw [hfl] at h
    cases flv with
    | list fl =>
      simp only at h
      refine ⟨fl, rfl, ?_⟩
      cases hpf : parseFilesList fl with
      | mk fs total =>
        rw [hpf] at h
        simp only [Except.ok.injEq] at h
        rw [← h]
    | int x => simp only at h; exact absurd h (by simp)
    | str x => simp only at h; exact absurd h (by simp)
    | dict x => simp only at h; exact absurd h (by simp)

theorem parseInfoDict_ok {d : Dict} {t : TorrentInfo} (h : parseInfoDict d = .ok t) :
    ∃ pl ps, mapFind keyPieceLength d = some (.int pl)
      ∧ mapFind keyPieces d = some (.str ps)
      ∧ ((∃ L : Int, mapFind keyLength d = some (.int L)
            ∧ t = ⟨pl, splitPieces ps, infoName d, true, L, [⟨infoName d, L⟩]⟩)
        ∨ (∃ fl, mapFind keyFiles d = some (.list fl)
            ∧ (∀ L : Int, mapFind keyLength d ≠ some (.int L))
            ∧ t = ⟨pl, splitPieces ps, infoName d, false,
                   (parseFilesList fl).2, (parseFilesList fl).1⟩)) := by
  rw [parseInfoDict.eq_def] at h
  cases hpl : mapFind keyPieceLength d with
  | none => rw [hpl] at h; exact absurd h (by simp)
  | some plv =>
    rw [hpl] at h
    cases plv with
    | int pl =>
      simp only at h
      cases hps : mapFind keyPieces d with
      | none => rw [hps] at h; exact absurd h (by simp)
      | some psv =>
        rw [hps] at h
        cases psv with
        | str ps =>
          simp only at h
          refine ⟨pl, ps, rfl, rfl, ?_⟩
          cases hlen : mapFind keyLength d with
          | none =>
            rw [hlen] at h
            simp only at h
            obtain ⟨fl, hfl, ht⟩ := infoFilesTail_ok h
            exact Or.inr ⟨fl, hfl, fun L h2 => absurd h2 (by simp), ht⟩
          | some lv =>
            rw [hlen] at h
            cases lv with
            | int L =>
              simp only [Except.ok.injEq] at h
              exact Or.inl ⟨L, rfl, h.symm⟩
            | str x =>
              simp only at h
              obtain ⟨fl, hfl, ht⟩ := infoFilesTail_ok h
              exact Or.inr ⟨fl, hfl, fun L h2 => absurd h2 (by simp), ht⟩
            | list x =>
              simp only at h
              obtain ⟨fl, hfl, ht⟩ := infoFilesTail_ok h
              exact Or.inr ⟨fl, hfl, fun L h2 => absurd h2 (by simp), ht⟩
            | dict x =>
              simp only at h
              obtain ⟨fl, hfl, ht⟩ := infoFilesTail_ok h
              exact Or.inr ⟨fl, hfl, fun L h2 => absurd h2 (by simp), ht⟩
        | int x => simp only at h; exact absurd h (by simp)
        | list x => simp only at h; exact absurd h (by simp)
        | dict x => simp only at h; exact absurd h (by simp)
    | str x => simp only at h; exact absurd h (by simp)
    | list x => simp only at h; exact absurd h (by simp)
    | dict x => simp only at h; exact absurd h (by simp)

/-! ## Path building in parseFilesList -/

theorem buildPathAux_slashAll : ∀ (ss : List (List Nat)) (i : Nat) (acc : List Nat), 0 < i →
    buildPathAux (ss.map BValue.str) i acc = acc ++ slashAll ss := by
  intro ss
  induction ss with
  | nil => intro i acc _; simp [buildPathAux, slashAll]
  | cons s rest ih =>
    intro i acc hi
    simp only [List.map_cons]
    rw [buildPathAux, if_pos hi, ih (i + 1) _ (by omega), slashAll]
    simp [List.append_assoc]

theorem joinSlash_eq_slashAll : ∀ (rest : List (List Nat)) (s0 : List Nat),
    joinSlash (s0 :: rest) = s0 ++ slashAll rest := by
  intro rest
  induction rest with
  | nil => intro s0; simp [joinSlash, slashAll]
  | cons s1 r ih =>
    intro s0
    rw [show joinSlash (s0 :: s1 :: r) = s0 ++ 47 :: joinSlash (s1 :: r) from rfl,
      ih s1, slashAll]

theorem buildPath_map_str (ss : List (List Nat)) :
    buildPath (ss.map BValue.str) = joinSlash ss := by
  cases ss with
  | nil => rfl
  | cons s0 rest =>
    rw [buildPath]
    simp only [List.map_cons]
    rw [buildPathAux, if_neg (by omega), buildPathAux_slashAll rest 1 _ (by omega),
      joinSlash_eq_slashAll]
    simp

/-! ## The file-entry filter of parseFilesList -/

theorem fileEntry_wellformed (fd : Dict) (L : Int) (pl : List BValue)
    (hL : mapFind keyLength fd = some (.int L))
    (hP : mapFind keyPath fd = some (.list pl)) :
    fileEntry (.dict fd) = some ⟨buildPath pl, L⟩ := by
  rw [fileEntry.eq_def]
  simp only
  rw [hL]
  simp only
  rw [hP]

theorem fileEntry_none_iff (e : BValue) : fileEntry e = none ↔ malformedEntry e = true := by
  cases e with
  | int n => simp [fileEntry, malformedEntry]
  | str s => simp [fileEntry, malformedEntry]
  | list l => simp [fileEntry, malformedEntry]
  | dict fd =>
    rw [fileEntry.eq_def, malformedEntry.eq_def]
    simp only
    cases hL : mapFind keyLength fd with
    | none => simp
    | some lv =>
      cases lv with
      | int L =>
        simp only
        cases hP : mapFind keyPath fd with
        | none => simp
        | some pv =>
          cases pv with
          | list pl => simp
          | int x => simp
          | str x => simp
          | dict x => simp
      | str x => simp
      | list x => simp
      | dict x => simp

theorem parseFilesListAux_eq : ∀ (fl : List BValue) (fs : List FileInfo) (total : Int),
    parseFilesListAux fl fs total
      = (fs ++ fl.filterMap fileEntry,
         (fl.filterMap fileEntry).foldl (fun t fi => i64 (t + fi.length)) total) := by
  intro fl
  induction fl with
  | nil => intro fs total; simp [parseFilesListAux]
  | cons e rest ih =>
    intro fs total
    rw [parseFilesListAux.eq_def]
    simp only
    cases hfe : fileEntry e with
    | none =>
      simp only [List.filterMap_cons, hfe]
      exact ih fs total
    | some fi =>
      simp only [List.filterMap_cons, hfe]
      rw [ih (fs ++ [fi]) (i64 (total + fi.length))]
      simp [List.append_assoc]

/-! ## Claim C7 -/

/-- C7, counterexample: an info dictionary whose `pieces` string is 5
bytes long decodes with a single extracted piece hash of length 5 — not
every extracted piece hash is exactly 20 bytes long. -/
theorem pieces_chunk_shorter_than_20 :
    parseInfoDict infoDictA = .ok infoA
    ∧ infoA.pieces = [bytes "AAAAA"]
    ∧ ¬ (∀ c ∈ infoA.pieces, c.length = 20) :=
  ⟨rfl, rfl, by decide⟩

/-- C7 (amended): the metadata layer splits the `pieces` byte-string into
consecutive chunks of at most 20 bytes whose concatenation is the whole
string, one piece hash per chunk, and performs no hash verification;
every chunk is exactly 20 bytes when the string's length is a multiple of
20 (the well-formed case), while otherwise the final chunk keeps the
remaining bytes and is shorter — the code does not validate the length. -/
theorem pieces_fixed_20_chunks (d : Dict) (ps : List Nat) (t : TorrentInfo)
    (hps : mapFind keyPieces d = some (.str ps))
    (h : parseInfoDict d = .ok t) :
    t.pieces = splitPieces ps
    ∧ t.pieces.flatten = ps
    ∧ (∀ c ∈ t.pieces, 0 < c.length ∧ c.length ≤ 20)
    ∧ (20 ∣ ps.length → ∀ c ∈ t.pieces, c.length = 20) := by
  obtain ⟨pl, ps2, hpl, hps2, hbr⟩ := parseInfoDict_ok h
  have hpseq : ps2 = ps := by
    rw [hps] at hps2
    have := hps2.symm
    simpa using this
  subst hpseq
  have hpieces : t.pieces = splitPieces ps2 := by
    rcases hbr with ⟨L, -, ht⟩ | ⟨fl, -, -, ht⟩ <;> rw [ht]
  refine ⟨hpieces, ?_, ?_, ?_⟩
  · rw [hpieces]
    exact splitPieces_join ps2
  · rw [hpieces]
    exact splitPieces_bounds ps2
  · intro hdvd
    rw [hpieces]
    exact splitPieces_all20 ps2 hdvd

/-- C7, witness: the amended theorem applied to `infoDictA`, whose
`pieces` string `AAAAA` is 5 bytes: the single chunk concatenates back to
the string and is at most 20 bytes (here 5, as 5 is not a multiple of
20). -/
theorem pieces_fixed_20_chunks_witness :
    infoA.pieces = splitPieces (bytes "AAAAA")
    ∧ infoA.pieces.flatten = bytes "AAAAA"
    ∧ (∀ c ∈ infoA.pieces, 0 < c.length ∧ c.length ≤ 20)
    ∧ (20 ∣ (bytes "AAAAA").length → ∀ c ∈ infoA.pieces, c.length = 20) :=
  pieces_fixed_20_chunks infoDictA (bytes "AAAAA") infoA (by rfl) (by rfl)

/-! ## Claim C8 -/

/-- C8: in a multi-file torrent, every file entry that is a dictionary
with an integer `length` and a list `path` is included, with its path
built by `buildPath` — which, for all-string components, is exactly the
components joined with `'/'` — and its length accumulated into the total
size; every malformed entry (not a dictionary, missing/non-integer
`length`, or missing/non-list `path`) yields no `FileInfo`, so it is
silently skipped and contributes nothing, and `parseFilesList` is total —
it never fails the torrent. -/
theorem parseFilesList_skips_malformed (fl : List BValue) :
    parseFilesList fl
      = (fl.filterMap fileEntry,
         (fl.filterMap fileEntry).foldl (fun t fi => i64 (t + fi.length)) 0)
    ∧ (∀ (fd : Dict) (L : Int) (pl : List BValue),
        mapFind keyLength fd = some (.int L) →
        mapFind keyPath fd = some (.list pl) →
        fileEntry (.dict fd) = some ⟨buildPath pl, L⟩)
    ∧ (∀ ss : List (List Nat), buildPath (ss.map BValue.str) = joinSlash ss)
    ∧ (∀ e, fileEntry e = none ↔ malformedEntry e = true) :=
  ⟨by rw [parseFilesList, parseFilesListAux_eq, List.nil_append],
   fileEntry_wellformed,
   buildPath_map_str,
   fileEntry_none_iff⟩

/-- C8, witness: a files list with one well-formed entry (`length` 7,
path components `a`, `b`) and one malformed entry (an integer): the
well-formed entry appears with path `a/b` and contributes 7 to the total;
the malformed entry is skipped and contributes nothing. -/
theorem parseFilesList_skips_malformed_witness :
    parseFilesList
        [BValue.dict [(keyLength, .int 7), (keyPath, .list [.str (bytes "a"), .str (bytes "b")])],
         BValue.int 3]
      = ([⟨bytes "a/b", 7⟩], 7) := by
  rw [(parseFilesList_skips_malformed
    [BValue.dict [(keyLength, .int 7), (keyPath, .list [.str (bytes "a"), .str (bytes "b")])],
     BValue.int 3]).1]
  rfl

/-! ## Claim C10 -/

/-- C10: when the info dictionary holds an integer `length` (even if a
`files` list is also present), the metadata layer takes single-file mode:
`singleFile` is true, the total size is that `length`, the file list is
exactly one entry named by `name` — and the `files` list is never read:
any dictionary agreeing on the `piece length`, `pieces`, `name` and
`length` lookups (its `files` entry arbitrary or absent) parses to the
identical result. -/
theorem length_wins_over_files (d : Dict) (L : Int) (t : TorrentInfo)
    (hlen : mapFind keyLength d = some (.int L))
    (h : parseInfoDict d = .ok t) :
    t.singleFile = true ∧ t.totalSize = L ∧ t.files = [⟨t.name, L⟩]
    ∧ ∀ d2 : Dict,
        mapFind keyPieceLength d2 = mapFind keyPieceLength d →
        mapFind keyPieces d2 = mapFind keyPieces d →
        mapFind keyName d2 = mapFind keyName d →
        mapFind keyLength d2 = mapFind keyLength d →
        parseInfoDict d2 = .ok t := by
  obtain ⟨pl, ps, hpl, hps, hbr⟩ := parseInfoDict_ok h
  rcases hbr with ⟨L2, hlen2, ht⟩ | ⟨fl, hfl, hnotint, ht⟩
  · have hL : L2 = L := by
      rw [hlen] at hlen2
      have := hlen2.symm
      simpa using this
    subst hL
    subst ht
    refine ⟨rfl, rfl, rfl, ?_⟩
    intro d2 h1 h2 h3 h4
    have hname : infoName d2 = infoName d := by
      rw [infoName.eq_def, infoName.eq_def, h3]
    rw [parseInfoDict.eq_def, h1, hpl]
    simp only
    rw [h2, hps]
    simp only
    rw [h4, hlen2]
    simp only
    rw [hname]
  · exact absurd hlen (hnotint L)

/-- C10, witness: `infoDictB` holds both `length` (10) and `files`; the
result is single-file with total size 10 and the one file `x`, and any
dictionary agreeing on the four read fields decodes identically. -/
theorem length_wins_over_files_witness :
    infoB.singleFile = true ∧ infoB.totalSize = 10 ∧ infoB.files = [⟨infoB.name, 10⟩]
    ∧ ∀ d2 : Dict,
        mapFind keyPieceLength d2 = mapFind keyPieceLength infoDictB →
        mapFind keyPieces d2 = mapFind keyPieces infoDictB →
        mapFind keyName d2 = mapFind keyName infoDictB →
        mapFind keyLength d2 = mapFind keyLength infoDictB →
        parseInfoDict d2 = .ok infoB :=
  length_wins_over_files infoDictB 10 infoB (by rfl) (by rfl)

end MyTorrents
